import Mathlib

/-!
Verification development for the archivo content-addressable store.

We shallowly embed the core of `archivo` (files `specs.py` and `storage.py`)
in Lean:

* the spec-tree data model (`FileMeta`, `DirMeta`, `FileSpec`/`DirSpec`
  union `FileOrDirSpec`),
* a value model of the local filesystem (`FSNode`: regular files,
  directories, symbolic links with materialized referents, and other
  path kinds such as devices or sockets),
* the spec builder `read_spec`, the traversal `iter_paths_and_specs`,
  the two-phase verifier `check_fulfils_spec`,
* the storage engine: `Storage` (blob map keyed by
  `(hash_name, hexdigest)`), `store`, `_restore_into` and `restore`.

The digest provider is an explicit parameter `h : String → List Nat → String`
(algorithm name and byte content to hex digest), mirroring `hashlib.new`;
theorems that need collision freedom assume the digest function is injective
in the content for the algorithm in use.

File modes: `os.stat().st_mode` combines file-type bits with permission
bits.  A filesystem node stores only its permission bits `perm`
(`perm < 4096` for real permissions); `st_mode` is `S_IFREG + perm` for a
regular file and `S_IFDIR + perm` for a directory, and `os.chmod(mode)`
keeps exactly `mode % 4096`.
-/

namespace Archivo

/-- Python `stat.S_IFREG`: file-type bits of a regular file. -/
def S_IFREG : Nat := 32768

/-- Python `stat.S_IFDIR`: file-type bits of a directory. -/
def S_IFDIR : Nat := 16384

/-- Class `FileMeta` from `specs.py`: mode, mtime in nanoseconds, size. -/
structure FileMeta where
  mode : Nat
  mtime_ns : Nat
  size : Nat
deriving Repr, DecidableEq

/-- Class `DirMeta` from `specs.py`: mode and mtime, no size. -/
structure DirMeta where
  mode : Nat
  mtime_ns : Nat
deriving Repr, DecidableEq

/-- The dynamic union `Union[FileMeta, DirMeta]` (distinct Python classes
never compare equal, which the tagged union preserves). -/
inductive MetaVal where
  | fm (m : FileMeta)
  | dm (m : DirMeta)
deriving Repr, DecidableEq

/-- Attribute access `.mode` on either meta class. -/
def MetaVal.mode : MetaVal → Nat
  | .fm m => m.mode
  | .dm m => m.mode

/-- Attribute access `.mtime_ns` on either meta class. -/
def MetaVal.mtime_ns : MetaVal → Nat
  | .fm m => m.mtime_ns
  | .dm m => m.mtime_ns

/-- Union `FileOrDirSpec = Union[FileSpec, DirSpec]` from `specs.py`.
`fileSpec name hash_name hexdigest meta` is `FileSpec`,
`dirSpec name contents meta` is `DirSpec`. -/
inductive FileOrDirSpec where
  | fileSpec (name : String) (hash_name : String) (hexdigest : String) (meta : MetaVal)
  | dirSpec (name : String) (contents : List FileOrDirSpec) (meta : MetaVal)

mutual

/-- Structural equality of spec nodes (Python `attrs`-generated `==`:
all fields compared recursively, distinct classes never equal). -/
def FileOrDirSpec.beq : FileOrDirSpec → FileOrDirSpec → Bool
  | .fileSpec n hn d m, .fileSpec n' hn' d' m' =>
      decide (n = n') && decide (hn = hn') && decide (d = d') && decide (m = m')
  | .dirSpec n cs m, .dirSpec n' cs' m' =>
      decide (n = n') && beqSpecList cs cs' && decide (m = m')
  | _, _ => false

/-- Elementwise equality of spec-node lists. -/
def beqSpecList : List FileOrDirSpec → List FileOrDirSpec → Bool
  | [], [] => true
  | a :: as, b :: bs => FileOrDirSpec.beq a b && beqSpecList as bs
  | _, _ => false

end

/-- Attribute `.name` of a spec node. -/
def FileOrDirSpec.name : FileOrDirSpec → String
  | .fileSpec n _ _ _ => n
  | .dirSpec n _ _ => n

/-- Attribute `.meta` of a spec node. -/
def FileOrDirSpec.meta : FileOrDirSpec → MetaVal
  | .fileSpec _ _ _ m => m
  | .dirSpec _ _ m => m

/-- Attribute `.hash_name` (only `FileSpec` has it; the `DirSpec` case is
unreachable wherever the code accesses it). -/
def FileOrDirSpec.hashName : FileOrDirSpec → String
  | .fileSpec _ hn _ _ => hn
  | .dirSpec _ _ _ => ""

/-- Attribute `.hexdigest` (only `FileSpec` has it). -/
def FileOrDirSpec.digest : FileOrDirSpec → String
  | .fileSpec _ _ d _ => d
  | .dirSpec _ _ _ => ""

/-- Whether a spec node is a `FileSpec` (Python `isinstance(spec, FileSpec)`). -/
def FileOrDirSpec.isFileSpec : FileOrDirSpec → Bool
  | .fileSpec _ _ _ _ => true
  | .dirSpec _ _ _ => false

/-- Value model of one filesystem object.

* `file content perm mtime_ns` — regular file, `content` its bytes,
  `perm` its permission bits;
* `dir entries perm mtime_ns` — directory with named entries in native
  iteration order;
* `symlink target` — symbolic link; `target` materializes the final
  referent (`none` for a dangling link);
* `other` — an existing path that is neither file nor directory nor
  symlink (device, socket, FIFO). -/
inductive FSNode where
  | file (content : List Nat) (perm : Nat) (mtime_ns : Nat)
  | dir (entries : List (String × FSNode)) (perm : Nat) (mtime_ns : Nat)
  | symlink (target : Option FSNode)
  | other

/-- Follow symbolic links to the final referent (`none`: the chain is
dangling); non-links resolve to themselves.  Models the implicit
link-following of `os.stat`, `Path.is_file`, `Path.is_dir`,
`Path.exists`. -/
def FSNode.resolve : FSNode → Option FSNode
  | .symlink (some t) => t.resolve
  | .symlink none => none
  | .file c p t => some (.file c p t)
  | .dir es p t => some (.dir es p t)
  | .other => some .other

/-- Python `Path.is_symlink()` on the node itself (no following). -/
def FSNode.isSymlink : FSNode → Bool
  | .symlink _ => true
  | _ => false

/-- Python `Path.is_file()` — follows symlinks. -/
def FSNode.isFile (n : FSNode) : Bool :=
  match n.resolve with
  | some (.file _ _ _) => true
  | _ => false

/-- Python `Path.is_dir()` — follows symlinks. -/
def FSNode.isDir (n : FSNode) : Bool :=
  match n.resolve with
  | some (.dir _ _ _) => true
  | _ => false

/-- Python `Path.exists()` — follows symlinks, `False` for dangling links. -/
def FSNode.existsP (n : FSNode) : Bool :=
  n.resolve.isSome

/-- Function `read_meta` from `specs.py` on a path that is known to exist:
`os.stat` (which follows links) then classify.  `none` models the
implicit Python `None` returned for paths that are neither file nor
directory. -/
def readMetaNode (n : FSNode) : Option MetaVal :=
  match n.resolve with
  | some (.file c p t) => some (.fm ⟨S_IFREG + p, t, c.length⟩)
  | some (.dir _ p t) => some (.dm ⟨S_IFDIR + p, t⟩)
  | _ => none

/-- Errors raised inside `read_spec` / `read_meta`:
`fileNotFound` is `FileNotFoundError` from `os.stat` on a missing path;
`unsupportedPathKind` is `ValueError(f'path ... has unsupported type')`. -/
inductive RErr where
  | fileNotFound
  | unsupportedPathKind
deriving Repr, DecidableEq

mutual

/-- Function `read_spec(path, hash_name)` from `specs.py`.  `h` is the digest
provider (`get_file_hexdigest` composed with `hashlib`); `name` is
`get_apparent_name(path)` (the basename under which the node is reached,
which for a symlink is the link's own name).  `os.stat` in `read_meta`
raises `FileNotFoundError` on a missing path; an existing path that is
neither file nor directory raises the unsupported-type `ValueError`. -/
def read_spec (h : String → List Nat → String) (alg : String) (name : String) :
    FSNode → Except RErr FileOrDirSpec
  | .file c p t =>
      .ok (.fileSpec name alg (h alg c) (.fm ⟨S_IFREG + p, t, c.length⟩))
  | .dir es p t =>
      match readSpecEntries h alg es with
      | .error e => .error e
      | .ok contents => .ok (.dirSpec name contents (.dm ⟨S_IFDIR + p, t⟩))
  | .symlink (some tgt) => read_spec h alg name tgt
  | .symlink none => .error .fileNotFound
  | .other => .error .unsupportedPathKind

/-- The list comprehension `[read_spec(child, hash_name) for child in
path.iterdir()]`: each directory entry is built under its own name. -/
def readSpecEntries (h : String → List Nat → String) (alg : String) :
    List (String × FSNode) → Except RErr (List FileOrDirSpec)
  | [] => .ok []
  | (nm, child) :: rest =>
      match read_spec h alg nm child with
      | .error e => .error e
      | .ok s =>
          match readSpecEntries h alg rest with
          | .error e => .error e
          | .ok ss => .ok (s :: ss)

end

/-! ## Traversal: `iter_paths_and_specs`

Relative paths are modelled as lists of name segments.  The traversal is
depth-first pre-order; the root's own relative path is `[root.name]`
(paths are relative to the parent of the root). -/

mutual

/-- Generator `_iter_paths_and_specs(spec, subdir, dirs=..., files=...)`: yields
`(subdir / spec.name, spec)` (filtered by kind) and recurses into
directory contents. -/
def iterPS (dirs files : Bool) (subdir : List String) :
    FileOrDirSpec → List (List String × FileOrDirSpec)
  | .fileSpec n hn d m =>
      if files then [(subdir ++ [n], .fileSpec n hn d m)] else []
  | .dirSpec n cs m =>
      (if dirs then [(subdir ++ [n], .dirSpec n cs m)] else []) ++
        iterPSList dirs files (subdir ++ [n]) cs

/-- Loop `for child in spec.contents: yield from _iter_paths_and_specs(child, this_path)`. -/
def iterPSList (dirs files : Bool) (subdir : List String) :
    List FileOrDirSpec → List (List String × FileOrDirSpec)
  | [] => []
  | c :: cs => iterPS dirs files subdir c ++ iterPSList dirs files subdir cs

end

/-! ## Path resolution in the filesystem model -/

/-- Find the entry of a directory listing with the given name
(directory entries on a real filesystem have unique names; lookup takes
the first match). -/
def lookupEntry (es : List (String × FSNode)) (nm : String) : Option FSNode :=
  (es.find? (fun e => e.1 = nm)).map (·.2)

/-- Walk a relative path below a node.  Intermediate components follow
symbolic links (as the OS path walk does); the final component is
returned unresolved. -/
def navigate (n : FSNode) : List String → Option FSNode
  | [] => some n
  | seg :: rest =>
      match n.resolve with
      | some (.dir es _ _) =>
          match lookupEntry es seg with
          | some child => navigate child rest
          | none => none
      | _ => none

/-- Path `containing_dir / rel_path` as a node: resolve a nonempty relative
path against the entries of the containing directory. -/
def resolvePath (es : List (String × FSNode)) : List String → Option FSNode
  | [] => none
  | seg :: rest => (lookupEntry es seg).bind (fun c => navigate c rest)

/-- Existence check `(containing_dir / rel_path).exists()`. -/
def existsAtPath (es : List (String × FSNode)) (rp : List String) : Bool :=
  ((resolvePath es rp).bind FSNode.resolve).isSome

/-- Existence check `(dst_dir / name).exists()` for a single component. -/
def existsAt (es : List (String × FSNode)) (nm : String) : Bool :=
  existsAtPath es [nm]

/-- Check `(containing_dir / name).is_symlink()` (no following; `False` when
the path is missing). -/
def isSymlinkEntry (es : List (String × FSNode)) (nm : String) : Bool :=
  match lookupEntry es nm with
  | some n => n.isSymlink
  | none => false

/-! ## The two-phase verifier `check_fulfils_spec` -/

/-- The payload of a `DifferentSpec` exception: message discriminant plus
the relative path, the expected value and what was observed. -/
inductive CheckFailure where
  | notExists (relPath : List String) (expected : FileOrDirSpec)
  | metaMismatch (relPath : List String) (expected : MetaVal) (observed : Option MetaVal)
  | specMismatch (relPath : List String) (expected observed : FileOrDirSpec)

/-- Outcomes of `check_fulfils_spec` other than success:
`differentSpec` is the `DifferentSpec` exception; `symlinkValueError` is
the `ValueError('cannot check symlink ...')` guard; `assertError` is the
`assert abs_path.is_file()` tripping; `readSpecErr` is an exception
escaping from the phase-2 `read_spec` call. -/
inductive CErr where
  | differentSpec (f : CheckFailure)
  | symlinkValueError
  | assertError
  | readSpecErr (e : RErr)

/-- Phase 1 of `check_fulfils_spec`: for every `(rel_path, spec)` pair
(dirs and files), check existence and then metadata equality, aborting
at the first mismatch.  No file content is read. -/
def phase1 (es : List (String × FSNode)) :
    List (List String × FileOrDirSpec) → Except CErr Unit
  | [] => .ok ()
  | (rp, sp) :: rest =>
      match (resolvePath es rp).bind FSNode.resolve with
      | none => .error (.differentSpec (.notExists rp sp))
      | some node =>
          if readMetaNode node = some sp.meta then phase1 es rest
          else .error (.differentSpec (.metaMismatch rp sp.meta (readMetaNode node)))

/-- Phase 2 of `check_fulfils_spec`: for every file pair, assert the
path is a regular file, re-read its spec (re-hashing content) and demand
full equality. -/
def phase2 (h : String → List Nat → String) (es : List (String × FSNode)) :
    List (List String × FileOrDirSpec) → Except CErr Unit
  | [] => .ok ()
  | (rp, sp) :: rest =>
      match resolvePath es rp with
      | none => .error .assertError
      | some node =>
          if node.isFile then
            match read_spec h sp.hashName (rp.getLastD "") node with
            | .error e => .error (.readSpecErr e)
            | .ok target =>
                if FileOrDirSpec.beq target sp then phase2 h es rest
                else .error (.differentSpec (.specMismatch rp sp target))
          else .error .assertError

/-- Function `check_fulfils_spec(path, root_spec)` from `specs.py`, for the call
sites' shape `path = containing_dir / root_spec.name`: reject a symlink
at `path`, then phase 1 over all nodes, then phase 2 over file nodes. -/
def check_fulfils_spec (h : String → List Nat → String)
    (es : List (String × FSNode)) (root_spec : FileOrDirSpec) : Except CErr Unit :=
  if isSymlinkEntry es root_spec.name then .error .symlinkValueError
  else
    match phase1 es (iterPS true true [] root_spec) with
    | .error e => .error e
    | .ok () => phase2 h es (iterPS false true [] root_spec)

/-! ## Storage engine (`storage.py`) -/

/-- Class `Storage`: the bound hash algorithm (read once from the
`.archivo-storage` record) and the blob namespace, an association from
`(hash_name, hexdigest)` to the blob's byte content.  One entry models
one file at `<root>/<hash_name>/<hexdigest>`. -/
structure Storage where
  hash_name : String
  blobs : List ((String × String) × List Nat)

/-- Content of the blob at address `<root>/<alg>/<d>`, if it exists. -/
def lookupBlob (st : Storage) (alg d : String) : Option (List Nat) :=
  (st.blobs.find? (fun e => e.1 = (alg, d))).map (·.2)

/-- Method `Storage.has_file`: existence check at `_get_storage_path(file_spec)`. -/
def Storage.hasFile (st : Storage) (sp : FileOrDirSpec) : Bool :=
  (lookupBlob st sp.hashName sp.digest).isSome

/-- Errors surfaced by the storage engine. -/
inductive SErr where
  | unsupportedType
  | fileNotFound
  | readErr (e : RErr)
  | osError
deriving DecidableEq

mutual

/-- One node of `shutil.copytree` with default `symlinks=False`: inner
symbolic links are followed and their referents copied (`copy2`
preserves content, mode and mtime); a dangling inner link raises
`FileNotFoundError`; special files raise an error. -/
def copyNode : FSNode → Except SErr FSNode
  | .file c p t => .ok (.file c p t)
  | .dir es p t =>
      match copyEntries es with
      | .error e => .error e
      | .ok es' => .ok (.dir es' p t)
  | .symlink (some tgt) => copyNode tgt
  | .symlink none => .error .fileNotFound
  | .other => .error .unsupportedType

/-- Copy all entries of a directory listing. -/
def copyEntries : List (String × FSNode) → Except SErr (List (String × FSNode))
  | [] => .ok []
  | (nm, child) :: rest =>
      match copyNode child with
      | .error e => .error e
      | .ok c' =>
          match copyEntries rest with
          | .error e => .error e
          | .ok rest' => .ok ((nm, c') :: rest')

end

/-- Function `_copy_into(src_path, dst_dir)`: `copytree` for a directory, `copy2`
for a file (both follow a symlink at `src_path` itself), otherwise the
unsupported-type `ValueError`. -/
def copy_into (src : FSNode) : Except SErr FSNode :=
  match src.resolve with
  | some (.dir es p t) =>
      match copyEntries es with
      | .error e => .error e
      | .ok es' => .ok (.dir es' p t)
  | some (.file c p t) => .ok (.file c p t)
  | _ => .error .unsupportedType

/-- The blob-population loop of `Storage.store`: for each file-level
`(rel_path, file_spec)` of the manifest, skip when the blob already
exists, otherwise move the staged file's bytes to the blob address.
`staged` is the staging directory's listing, so `rel_path` (which starts
with the manifest root's name) resolves inside it. -/
def storeBlobs (staged : List (String × FSNode)) :
    Storage → List (List String × FileOrDirSpec) → Except SErr Storage
  | st, [] => .ok st
  | st, (rp, sp) :: rest =>
      if st.hasFile sp then storeBlobs staged st rest
      else
        match resolvePath staged rp with
        | some (.file c _ _) =>
            storeBlobs staged ⟨st.hash_name, ((sp.hashName, sp.digest), c) :: st.blobs⟩ rest
        | _ => .error .osError

/-- Method `Storage.store(src_path)`: copy the source into a staging directory
under its apparent `name`, build the spec with the storage's bound
algorithm, move each unique file's bytes into the blob store, return the
spec.  The staging directory is discarded on every exit path. -/
def store (h : String → List Nat → String) (st : Storage) (name : String)
    (src : FSNode) : Except SErr (FileOrDirSpec × Storage) :=
  match copy_into src with
  | .error e => .error e
  | .ok staged =>
      match read_spec h st.hash_name name staged with
      | .error e => .error (.readErr e)
      | .ok spec =>
          match storeBlobs [(name, staged)] st (iterPS false true [] spec) with
          | .error e => .error e
          | .ok st' => .ok (spec, st')

/-- Outcomes of `Storage.restore` other than success. -/
inductive RestErr where
  | collisionError (f : CheckFailure)
  | restoreError (f : CheckFailure)
  | checkOther (e : CErr)
  | fileNotFound

mutual

/-- Net effect of the three staging passes of `_restore_into` (create
every directory pre-order, copy every file's bytes from its blob
address, then set mode — `chmod` keeps `mode % 4096` — and mtime on
every node): the staged tree, or `FileNotFoundError` when a blob named
by the spec is missing from the store. -/
def buildTree (st : Storage) : FileOrDirSpec → Except RestErr FSNode
  | .fileSpec _ alg d m =>
      match lookupBlob st alg d with
      | some c => .ok (.file c (m.mode % 4096) m.mtime_ns)
      | none => .error .fileNotFound
  | .dirSpec _ cs m =>
      match buildEntries st cs with
      | .error e => .error e
      | .ok es => .ok (.dir es (m.mode % 4096) m.mtime_ns)

/-- Stage every child of a directory spec under its recorded name. -/
def buildEntries (st : Storage) : List FileOrDirSpec → Except RestErr (List (String × FSNode))
  | [] => .ok []
  | c :: cs =>
      match buildTree st c with
      | .error e => .error e
      | .ok n =>
          match buildEntries st cs with
          | .error e => .error e
          | .ok es => .ok ((c.name, n) :: es)

end

/-- Method `Storage._restore_into(root_spec, dst_dir)` on a fresh staging
directory: build the staged tree, then `check_fulfils_spec` against it;
a `DifferentSpec` is wrapped in `RestoreError`, other exceptions
propagate. -/
def restore_into (h : String → List Nat → String) (st : Storage)
    (spec : FileOrDirSpec) : Except RestErr FSNode :=
  match buildTree st spec with
  | .error e => .error e
  | .ok staged =>
      match check_fulfils_spec h [(spec.name, staged)] spec with
      | .ok () => .ok staged
      | .error (.differentSpec f) => .error (.restoreError f)
      | .error e => .error (.checkOther e)

/-- Replace the entry named `nm` (or append it): the effect of
`os.rename(tmp_path, dst_path)` on the destination listing. -/
def insertEntry (es : List (String × FSNode)) (nm : String) (n : FSNode) :
    List (String × FSNode) :=
  match es with
  | [] => [(nm, n)]
  | (nm', n') :: rest =>
      if nm' = nm then (nm, n) :: rest else (nm', n') :: insertEntry rest nm n

/-- Method `Storage.restore(spec, dst_dir)`, instrumented: the second component
records every write that becomes visible at `dst_path = dst_dir /
spec.name` (the staging work happens inside the storage root; the only
operation that touches `dst_path` is the final `os.rename`, which
publishes a complete tree in one step).

If `dst_path` exists, run the verifier: success is an idempotent no-op,
a `DifferentSpec` becomes `CollisionError`, any other exception (the
symlink `ValueError`, the phase-2 assertion) propagates as is.  If
`dst_path` does not exist, stage with `_restore_into` and commit with
one rename. -/
def restoreT (h : String → List Nat → String) (st : Storage)
    (spec : FileOrDirSpec) (dst : List (String × FSNode)) :
    Except RestErr (List (String × FSNode)) × List FSNode :=
  if existsAt dst spec.name then
    match check_fulfils_spec h dst spec with
    | .ok () => (.ok dst, [])
    | .error (.differentSpec f) => (.error (.collisionError f), [])
    | .error e => (.error (.checkOther e), [])
  else
    match restore_into h st spec with
    | .error e => (.error e, [])
    | .ok staged => (.ok (insertEntry dst spec.name staged), [staged])

/-- Method `Storage.restore` proper: the resulting destination listing. -/
def restore (h : String → List Nat → String) (st : Storage)
    (spec : FileOrDirSpec) (dst : List (String × FSNode)) :
    Except RestErr (List (String × FSNode)) :=
  (restoreT h st spec dst).1

/-! ## Well-formedness predicates -/

/-- All sibling names in a directory listing are pairwise distinct, as
on a real filesystem. -/
def noDupNames : List (String × FSNode) → Bool
  | [] => true
  | (nm, _) :: rest => !(rest.any (fun e => decide (e.1 = nm))) && noDupNames rest

mutual

/-- A tree of regular files and directories only (the kind of tree the
round-trip property quantifies over): no symlinks, no special files,
permission bits in range, distinct sibling names. -/
def Regular : FSNode → Bool
  | .file _ p _ => decide (p < 4096)
  | .dir es p _ => decide (p < 4096) && noDupNames es && RegularEntries es
  | .symlink _ => false
  | .other => false

/-- All entries of a directory listing are regular trees. -/
def RegularEntries : List (String × FSNode) → Bool
  | [] => true
  | (_, n) :: rest => Regular n && RegularEntries rest

end

mutual

/-- The spec tree respects the data model's typing: every `FileSpec`
carries a `FileMeta` and every `DirSpec` a `DirMeta`. -/
def wtSpec : FileOrDirSpec → Bool
  | .fileSpec _ _ _ (.fm _) => true
  | .fileSpec _ _ _ (.dm _) => false
  | .dirSpec _ cs (.dm _) => wtSpecList cs
  | .dirSpec _ _ (.fm _) => false

/-- Well-typedness of a list of spec nodes. -/
def wtSpecList : List FileOrDirSpec → Bool
  | [] => true
  | c :: cs => wtSpec c && wtSpecList cs

end

/-- Integrity of the blob store: the content of every blob hashes (under
the digest provider) to the digest in its own address. -/
def WellStored (h : String → List Nat → String) (st : Storage) : Prop :=
  ∀ a d c, lookupBlob st a d = some c → h a c = d

/-- There is at most one blob per `(hash_name, hexdigest)` address. -/
def distinctKeys : List ((String × String) × List Nat) → Bool
  | [] => true
  | (k, _) :: rest => !(rest.any (fun e => decide (e.1 = k))) && distinctKeys rest

/-- A concrete injective stand-in for the digest provider used by the
witnesses: the content is encoded to a natural number and written in
unary.  (The real provider is `hashlib`; theorems that need collision
freedom take injectivity as a hypothesis, which this function
satisfies.) -/
def demoHash : String → List Nat → String :=
  fun _ c => String.mk (List.replicate (Encodable.encode c) 'a')

/-! ## Concrete demonstration values -/

/-- Observer: is a verifier outcome a success? -/
def isOkCheck : Except CErr Unit → Bool
  | .ok _ => true
  | .error _ => false

/-- Observer: did restore fail with `CollisionError`? -/
def isCollisionErr : Except RestErr (List (String × FSNode)) → Bool
  | .error (.collisionError _) => true
  | _ => false

/-- A small regular tree: `proj/a.txt` (bytes `[1]`) and `proj/sub/b`. -/
def srcDemo : FSNode :=
  .dir [("a.txt", .file [1] 420 1000), ("sub", .dir [("b", .file [2] 384 3000)] 448 2500)] 493 2000

/-- A freshly created storage root with no blobs. -/
def stEmpty : Storage := ⟨"sha256", []⟩

/-- A single regular file. -/
def fileDemo : FSNode := .file [1] 420 1000

/-- The spec of `fileDemo` under the name `f`. -/
def specFileDemo : FileOrDirSpec :=
  .fileSpec "f" "sha256" (demoHash "sha256" [1]) (.fm ⟨S_IFREG + 420, 1000, 1⟩)

/-- The storage after storing `fileDemo` into `stEmpty`. -/
def stOneDemo : Storage := ⟨"sha256", [(("sha256", demoHash "sha256" [1]), [1])]⟩

/-- A corrupted storage: the blob at `fileDemo`'s address holds other
bytes of the same length. -/
def stBadDemo : Storage := ⟨"sha256", [(("sha256", demoHash "sha256" [1]), [2])]⟩

/-- A destination whose entry `proj` is a symbolic link to a file. -/
def dstSymDemo : List (String × FSNode) := [("proj", .symlink (some (.file [1] 420 1000)))]

/-- A file spec named `proj` (never fulfilled by a symlink). -/
def specSymDemo : FileOrDirSpec :=
  .fileSpec "proj" "sha256" "zzz" (.fm ⟨S_IFREG + 420, 1000, 1⟩)

/-- A file spec named `proj` whose recorded metadata matches nothing in
the demo listings (different mode and mtime). -/
def specBadMetaDemo : FileOrDirSpec :=
  .fileSpec "proj" "sha256" "zzz" (.fm ⟨S_IFREG + 511, 1001, 1⟩)

/-- The manifest returned for `srcDemo`. -/
def specProjDemo : FileOrDirSpec :=
  .dirSpec "proj"
    [.fileSpec "a.txt" "sha256" (demoHash "sha256" [1]) (.fm ⟨S_IFREG + 420, 1000, 1⟩),
     .dirSpec "sub"
       [.fileSpec "b" "sha256" (demoHash "sha256" [2]) (.fm ⟨S_IFREG + 384, 3000, 1⟩)]
       (.dm ⟨S_IFDIR + 448, 2500⟩)]
    (.dm ⟨S_IFDIR + 493, 2000⟩)

/-- The storage after storing `srcDemo` into `stEmpty` (blobs in
creation order, most recent first). -/
def stProjDemo : Storage :=
  ⟨"sha256", [(("sha256", demoHash "sha256" [2]), [2]),
              (("sha256", demoHash "sha256" [1]), [1])]⟩

/-! ## Basic lemmas -/

theorem demoHash_inj (alg : String) : ∀ c c', demoHash alg c = demoHash alg c' → c = c' := by
  intro c c' hcc
  simp only [demoHash] at hcc
  have hlen := congrArg (fun s => s.data.length) hcc
  simp only [List.length_replicate] at hlen
  exact Encodable.encode_injective hlen

mutual

theorem FileOrDirSpec.beq_iff_eq : ∀ (a b : FileOrDirSpec), FileOrDirSpec.beq a b = true ↔ a = b
  | .fileSpec _ _ _ _, .fileSpec _ _ _ _ => by
      simp [FileOrDirSpec.beq, and_assoc]
  | .fileSpec _ _ _ _, .dirSpec _ _ _ => by
      simp [FileOrDirSpec.beq]
  | .dirSpec _ _ _, .fileSpec _ _ _ _ => by
      simp [FileOrDirSpec.beq]
  | .dirSpec _ cs _, .dirSpec _ cs' _ => by
      simp [FileOrDirSpec.beq, beqSpecList_iff_eq cs cs', and_assoc]

theorem beqSpecList_iff_eq : ∀ (as bs : List FileOrDirSpec), beqSpecList as bs = true ↔ as = bs
  | [], [] => by simp [beqSpecList]
  | [], _ :: _ => by simp [beqSpecList]
  | _ :: _, [] => by simp [beqSpecList]
  | a :: as, b :: bs => by
      simp [beqSpecList, FileOrDirSpec.beq_iff_eq a b, beqSpecList_iff_eq as bs]

end

theorem FileOrDirSpec.beq_refl (s : FileOrDirSpec) : FileOrDirSpec.beq s s = true :=
  (FileOrDirSpec.beq_iff_eq s s).mpr rfl

theorem resolve_idem : ∀ (n m : FSNode), n.resolve = some m → m.resolve = some m
  | .file _ _ _, _, h => by cases h; rfl
  | .dir _ _ _, _, h => by cases h; rfl
  | .symlink (some t), m, h => resolve_idem t m (by simpa [FSNode.resolve] using h)
  | .symlink none, _, h => by cases h
  | .other, _, h => by cases h; rfl

theorem Regular.resolve_self {n : FSNode} (hreg : Regular n = true) :
    n.resolve = some n := by
  cases n with
  | file c p t => rfl
  | dir es p t => rfl
  | symlink tgt => simp [Regular] at hreg
  | other => simp [Regular] at hreg

theorem Regular.not_symlink {n : FSNode} (hreg : Regular n = true) :
    n.isSymlink = false := by
  cases n with
  | file c p t => rfl
  | dir es p t => rfl
  | symlink tgt => simp [Regular] at hreg
  | other => simp [Regular] at hreg

theorem lookupEntry_cons_self (nm : String) (n : FSNode) (es : List (String × FSNode)) :
    lookupEntry ((nm, n) :: es) nm = some n := by
  simp [lookupEntry, List.find?]

theorem lookupEntry_cons_ne (nm nm' : String) (n : FSNode) (es : List (String × FSNode))
    (hne : nm' ≠ nm) : lookupEntry ((nm', n) :: es) nm = lookupEntry es nm := by
  simp [lookupEntry, List.find?, hne]

theorem lookupEntry_some_any {es : List (String × FSNode)} {nm : String} {n : FSNode}
    (hl : lookupEntry es nm = some n) :
    es.any (fun e => decide (e.1 = nm)) = true := by
  induction es with
  | nil => simp [lookupEntry] at hl
  | cons e rest ih =>
      by_cases he : e.1 = nm
      · simp [he]
      · obtain ⟨nm', n'⟩ := e
        simp only at he
        rw [lookupEntry_cons_ne _ _ _ _ he] at hl
        simp [ih hl]

theorem lookupEntry_insertEntry_self (es : List (String × FSNode)) (nm : String) (n : FSNode) :
    lookupEntry (insertEntry es nm n) nm = some n := by
  induction es with
  | nil => simp [insertEntry, lookupEntry, List.find?]
  | cons e rest ih =>
      obtain ⟨nm', n'⟩ := e
      by_cases he : nm' = nm
      · subst he
        simp [insertEntry, lookupEntry_cons_self]
      · simp only [insertEntry, if_neg he]
        rw [lookupEntry_cons_ne _ _ _ _ he]
        exact ih

theorem resolvePath_cons (es : List (String × FSNode)) (nm : String) (rest : List String) :
    resolvePath es (nm :: rest) = (lookupEntry es nm).bind (fun c => navigate c rest) := rfl

theorem resolvePath_singleton_self (nm : String) (n : FSNode) :
    resolvePath [(nm, n)] (nm :: rest) = navigate n rest := by
  rw [resolvePath_cons, lookupEntry_cons_self]
  rfl

/-! ## Phase lemmas -/

theorem phase1_ok_of (es : List (String × FSNode))
    (l : List (List String × FileOrDirSpec))
    (H : ∀ rp sp, (rp, sp) ∈ l →
      ∃ node, (resolvePath es rp).bind FSNode.resolve = some node ∧
        readMetaNode node = some sp.meta) :
    phase1 es l = .ok () := by
  induction l with
  | nil => rfl
  | cons x rest ih =>
      obtain ⟨rp, sp⟩ := x
      obtain ⟨node, hres, hmeta⟩ := H rp sp (List.mem_cons_self _ _)
      simp only [phase1, hres, hmeta, if_pos rfl]
      exact ih (fun rp' sp' hm => H rp' sp' (List.mem_cons_of_mem _ hm))

theorem phase1_ok_forall {es : List (String × FSNode)}
    {l : List (List String × FileOrDirSpec)}
    (h : phase1 es l = .ok ()) :
    ∀ rp sp, (rp, sp) ∈ l →
      ∃ node, (resolvePath es rp).bind FSNode.resolve = some node ∧
        readMetaNode node = some sp.meta := by
  induction l with
  | nil => intro rp sp hm; simp at hm
  | cons x rest ih =>
      obtain ⟨rp₀, sp₀⟩ := x
      intro rp sp hm
      rcases hres : (resolvePath es rp₀).bind FSNode.resolve with _ | node
      · simp [phase1, hres] at h
      · by_cases hmeta : readMetaNode node = some sp₀.meta
        · simp only [phase1, hres, hmeta, if_true, eq_self_iff_true] at h
          rcases List.mem_cons.mp hm with heq | hmem
          · simp only [Prod.mk.injEq] at heq
            obtain ⟨rfl, rfl⟩ := heq
            exact ⟨node, hres, hmeta⟩
          · exact ih h rp sp hmem
        · simp [phase1, hres, hmeta] at h

theorem phase2_ok_of (h : String → List Nat → String) (es : List (String × FSNode))
    (l : List (List String × FileOrDirSpec))
    (H : ∀ rp sp, (rp, sp) ∈ l →
      ∃ node, resolvePath es rp = some node ∧ node.isFile = true ∧
        read_spec h sp.hashName (rp.getLastD "") node = .ok sp) :
    phase2 h es l = .ok () := by
  induction l with
  | nil => rfl
  | cons x rest ih =>
      obtain ⟨rp, sp⟩ := x
      obtain ⟨node, hres, hfile, hrs⟩ := H rp sp (List.mem_cons_self _ _)
      simp only [phase2, hres, hfile, hrs, FileOrDirSpec.beq_refl, if_true, eq_self_iff_true]
      exact ih (fun rp' sp' hm => H rp' sp' (List.mem_cons_of_mem _ hm))

/-! ## Traversal lemmas -/

mutual

theorem iterPS_map : ∀ (s : FileOrDirSpec) (d f : Bool) (pre : List String),
    iterPS d f pre s = (iterPS d f [] s).map (fun x => (pre ++ x.1, x.2))
  | .fileSpec n hn dg m, d, f, pre => by
      cases f <;> simp [iterPS]
  | .dirSpec n cs m, d, f, pre => by
      rw [iterPS, iterPS, iterPSList_map cs d f (pre ++ [n]), iterPSList_map cs d f ([] ++ [n])]
      cases d <;> simp [List.map_map, Function.comp_def]

theorem iterPSList_map : ∀ (cs : List FileOrDirSpec) (d f : Bool) (pre : List String),
    iterPSList d f pre cs = (iterPSList d f [] cs).map (fun x => (pre ++ x.1, x.2))
  | [], d, f, pre => by simp [iterPSList]
  | c :: cs, d, f, pre => by
      rw [iterPSList, iterPSList, iterPS_map c d f pre, iterPSList_map cs d f pre]
      simp

end

theorem iterPSList_mem {d f : Bool} {pre : List String} {cs : List FileOrDirSpec}
    {rp : List String} {sp : FileOrDirSpec} :
    (rp, sp) ∈ iterPSList d f pre cs ↔ ∃ c ∈ cs, (rp, sp) ∈ iterPS d f pre c := by
  induction cs with
  | nil => simp [iterPSList]
  | cons c cs ih =>
      simp only [iterPSList, List.mem_append, ih, List.mem_cons]
      constructor
      · rintro (hm | ⟨c', hc', hm⟩)
        · exact ⟨c, Or.inl rfl, hm⟩
        · exact ⟨c', Or.inr hc', hm⟩
      · rintro ⟨c', hc' | hc', hm⟩
        · subst hc'; exact Or.inl hm
        · exact Or.inr ⟨c', hc', hm⟩

theorem iterPS_head {d f : Bool} {s : FileOrDirSpec} {rp : List String}
    {sp : FileOrDirSpec} (hm : (rp, sp) ∈ iterPS d f [] s) :
    ∃ rp', rp = s.name :: rp' := by
  cases s with
  | fileSpec n hn dg m =>
      cases f <;> simp [iterPS] at hm
      exact ⟨[], hm.1⟩
  | dirSpec n cs m =>
      simp only [iterPS] at hm
      rcases List.mem_append.mp hm with hroot | hrest
      · cases d <;> simp at hroot
        exact ⟨[], hroot.1⟩
      · rw [iterPSList_map cs d f ([] ++ [n])] at hrest
        simp only [List.mem_map] at hrest
        obtain ⟨x, _, hx⟩ := hrest
        refine ⟨x.1, ?_⟩
        have := congrArg Prod.fst hx
        simp at this
        simp [FileOrDirSpec.name, ← this]

mutual

theorem iterPS_files_isFileSpec : ∀ (s : FileOrDirSpec) (f : Bool) (pre rp : List String)
    (sp : FileOrDirSpec), (rp, sp) ∈ iterPS false f pre s → sp.isFileSpec = true
  | .fileSpec n hn dg m, f, pre, rp, sp => by
      intro hm
      cases f <;> simp [iterPS] at hm
      rw [hm.2]
      rfl
  | .dirSpec n cs m, f, pre, rp, sp => by
      intro hm
      simp only [iterPS, if_neg Bool.false_ne_true, List.nil_append] at hm
      exact iterPSList_files_isFileSpec cs f (pre ++ [n]) rp sp hm

theorem iterPSList_files_isFileSpec : ∀ (cs : List FileOrDirSpec) (f : Bool)
    (pre rp : List String) (sp : FileOrDirSpec),
    (rp, sp) ∈ iterPSList false f pre cs → sp.isFileSpec = true
  | [], f, pre, rp, sp => by intro hm; simp [iterPSList] at hm
  | c :: cs, f, pre, rp, sp => by
      intro hm
      rcases List.mem_append.mp hm with hc | hcs
      · exact iterPS_files_isFileSpec c f pre rp sp hc
      · exact iterPSList_files_isFileSpec cs f pre rp sp hcs

end

mutual

theorem iterPS_mono_dirs : ∀ (s : FileOrDirSpec) (f : Bool) (pre rp : List String)
    (sp : FileOrDirSpec), (rp, sp) ∈ iterPS false f pre s → (rp, sp) ∈ iterPS true f pre s
  | .fileSpec n hn dg m, f, pre, rp, sp => by
      intro hm
      simpa [iterPS] using hm
  | .dirSpec n cs m, f, pre, rp, sp => by
      intro hm
      simp only [iterPS, Bool.false_eq_true, if_false, List.nil_append] at hm
      simp only [iterPS, if_true, eq_self_iff_true]
      exact List.mem_append.mpr (Or.inr (iterPSList_mono_dirs cs f (pre ++ [n]) rp sp hm))

theorem iterPSList_mono_dirs : ∀ (cs : List FileOrDirSpec) (f : Bool)
    (pre rp : List String) (sp : FileOrDirSpec),
    (rp, sp) ∈ iterPSList false f pre cs → (rp, sp) ∈ iterPSList true f pre cs
  | [], f, pre, rp, sp => by intro hm; simp [iterPSList] at hm
  | c :: cs, f, pre, rp, sp => by
      intro hm
      rcases List.mem_append.mp hm with hc | hcs
      · exact List.mem_append.mpr (Or.inl (iterPS_mono_dirs c f pre rp sp hc))
      · exact List.mem_append.mpr (Or.inr (iterPSList_mono_dirs cs f pre rp sp hcs))

end

theorem iterPS_mem_cons {d f : Bool} {nm : String} {c : FileOrDirSpec}
    {rp : List String} {sp : FileOrDirSpec} :
    (rp, sp) ∈ iterPS d f [nm] c ↔ ∃ rp₀, rp = nm :: rp₀ ∧ (rp₀, sp) ∈ iterPS d f [] c := by
  rw [iterPS_map c d f [nm]]
  constructor
  · intro hm
    simp only [List.mem_map] at hm
    obtain ⟨⟨rp₀, sp₀⟩, hmem, hx⟩ := hm
    simp only [Prod.mk.injEq] at hx
    obtain ⟨h1, h2⟩ := hx
    subst h2
    exact ⟨rp₀, by rw [← h1]; rfl, hmem⟩
  · rintro ⟨rp₀, rfl, hmem⟩
    exact List.mem_map.mpr ⟨(rp₀, sp), hmem, rfl⟩

/-! ## Spec-builder lemmas -/

theorem read_spec_name (h : String → List Nat → String) :
    ∀ (n : FSNode) (alg name : String) (s : FileOrDirSpec),
      read_spec h alg name n = .ok s → s.name = name
  | .file c p t, alg, name, s => by
      intro hs
      simp only [read_spec, Except.ok.injEq] at hs
      rw [← hs]
      rfl
  | .dir es p t, alg, name, s => by
      intro hs
      simp only [read_spec] at hs
      rcases hre : readSpecEntries h alg es with e | cs
      · simp [hre] at hs
      · simp only [hre, Except.ok.injEq] at hs
        rw [← hs]
        rfl
  | .symlink (some tgt), alg, name, s => fun hs =>
      read_spec_name h tgt alg name s (by simpa [read_spec] using hs)
  | .symlink none, alg, name, s => by intro hs; simp [read_spec] at hs
  | .other, alg, name, s => by intro hs; simp [read_spec] at hs

theorem read_spec_meta (h : String → List Nat → String) {n : FSNode}
    {alg name : String} {s : FileOrDirSpec} (hreg : Regular n = true)
    (hs : read_spec h alg name n = .ok s) :
    readMetaNode n = some s.meta := by
  cases n with
  | file c p t =>
      simp only [read_spec, Except.ok.injEq] at hs
      rw [← hs]
      rfl
  | dir es p t =>
      simp only [read_spec] at hs
      rcases hre : readSpecEntries h alg es with e | cs
      · simp [hre] at hs
      · simp only [hre, Except.ok.injEq] at hs
        rw [← hs]
        rfl
  | symlink tgt => simp [Regular] at hreg
  | other => simp [Regular] at hreg

mutual

theorem read_spec_total (h : String → List Nat → String) :
    ∀ (n : FSNode), Regular n = true → ∀ (alg name : String),
      ∃ s, read_spec h alg name n = .ok s
  | .file c p t, _, alg, name => ⟨_, rfl⟩
  | .dir es p t, hreg, alg, name => by
      simp only [Regular, Bool.and_eq_true] at hreg
      obtain ⟨cs, hcs⟩ := readSpecEntries_total h es hreg.2 alg
      exact ⟨.dirSpec name cs (.dm ⟨S_IFDIR + p, t⟩), by simp [read_spec, hcs]⟩
  | .symlink tgt, hreg, alg, name => by simp [Regular] at hreg
  | .other, hreg, alg, name => by simp [Regular] at hreg

theorem readSpecEntries_total (h : String → List Nat → String) :
    ∀ (es : List (String × FSNode)), RegularEntries es = true → ∀ (alg : String),
      ∃ cs, readSpecEntries h alg es = .ok cs
  | [], _, alg => ⟨[], rfl⟩
  | (nm, child) :: rest, hre, alg => by
      simp only [RegularEntries, Bool.and_eq_true] at hre
      obtain ⟨s, hs⟩ := read_spec_total h child hre.1 alg nm
      obtain ⟨cs, hcs⟩ := readSpecEntries_total h rest hre.2 alg
      exact ⟨s :: cs, by simp [readSpecEntries, hs, hcs]⟩

end

theorem read_spec_file_of_isFileSpec (h : String → List Nat → String) {n : FSNode}
    {alg nm : String} {sp : FileOrDirSpec} (hreg : Regular n = true)
    (hs : read_spec h alg nm n = .ok sp) (hf : sp.isFileSpec = true) :
    ∃ c p t, n = .file c p t ∧
      sp = .fileSpec nm alg (h alg c) (.fm ⟨S_IFREG + p, t, c.length⟩) := by
  cases n with
  | file c p t =>
      simp only [read_spec, Except.ok.injEq] at hs
      exact ⟨c, p, t, rfl, hs.symm⟩
  | dir es p t =>
      simp only [read_spec] at hs
      rcases hre : readSpecEntries h alg es with e | cs
      · simp [hre] at hs
      · simp only [hre, Except.ok.injEq] at hs
        rw [← hs] at hf
        simp [FileOrDirSpec.isFileSpec] at hf
  | symlink tgt => simp [Regular] at hreg
  | other => simp [Regular] at hreg

mutual

theorem read_spec_corr (h : String → List Nat → String) :
    ∀ (n : FSNode) (alg name : String) (s : FileOrDirSpec),
      Regular n = true → read_spec h alg name n = .ok s →
      ∀ (d f : Bool) (rp : List String) (sp : FileOrDirSpec),
        (rp, sp) ∈ iterPS d f [] s →
        ∃ rp' sub, rp = name :: rp' ∧ navigate n rp' = some sub ∧
          Regular sub = true ∧ read_spec h alg sp.name sub = .ok sp ∧
          rp.getLastD "" = sp.name
  | .file c p t, alg, name, s => by
      intro hreg hs d f rp sp hm
      simp only [read_spec, Except.ok.injEq] at hs
      subst hs
      cases f <;> simp [iterPS] at hm
      obtain ⟨rfl, rfl⟩ := hm
      refine ⟨[], .file c p t, rfl, rfl, hreg, ?_, rfl⟩
      simp [read_spec, FileOrDirSpec.name]
  | .dir es p t, alg, name, s => by
      intro hreg hs d f rp sp hm
      have hregd := hreg
      simp only [Regular, Bool.and_eq_true] at hregd
      simp only [read_spec] at hs
      rcases hre : readSpecEntries h alg es with e | cs
      · simp [hre] at hs
      · simp only [hre, Except.ok.injEq] at hs
        subst hs
        simp only [iterPS, List.nil_append] at hm
        rcases List.mem_append.mp hm with hroot | hrest
        · cases d <;> simp at hroot
          obtain ⟨rfl, rfl⟩ := hroot
          refine ⟨[], .dir es p t, rfl, rfl, hreg, ?_, rfl⟩
          simp [read_spec, hre, FileOrDirSpec.name]
        · obtain ⟨c, hc, hmc⟩ := iterPSList_mem.mp hrest
          obtain ⟨rp₀, rfl, hmc₀⟩ := iterPS_mem_cons.mp hmc
          obtain ⟨child, rp', sub, hlook, hrp₀, hnav, hsubreg, hsubrs, hlast⟩ :=
            readSpecEntries_corr h es alg cs hregd.2 hregd.1.2 hre c hc d f rp₀ sp hmc₀
          subst hrp₀
          refine ⟨c.name :: rp', sub, rfl, ?_, hsubreg, hsubrs, ?_⟩
          · simp only [navigate, FSNode.resolve, hlook]
            exact hnav
          · simp only [List.getLastD_cons] at hlast ⊢
            exact hlast

  | .symlink tgt, alg, name, s => by intro hreg; simp [Regular] at hreg
  | .other, alg, name, s => by intro hreg; simp [Regular] at hreg

theorem readSpecEntries_corr (h : String → List Nat → String) :
    ∀ (es : List (String × FSNode)) (alg : String) (cs : List FileOrDirSpec),
      RegularEntries es = true → noDupNames es = true →
      readSpecEntries h alg es = .ok cs →
      ∀ (c : FileOrDirSpec), c ∈ cs →
      ∀ (d f : Bool) (rp : List String) (sp : FileOrDirSpec),
        (rp, sp) ∈ iterPS d f [] c →
        ∃ child rp' sub, lookupEntry es c.name = some child ∧ rp = c.name :: rp' ∧
          navigate child rp' = some sub ∧ Regular sub = true ∧
          read_spec h alg sp.name sub = .ok sp ∧ rp.getLastD "" = sp.name
  | [], alg, cs, _, _, hre => by
      simp only [readSpecEntries, Except.ok.injEq] at hre
      subst hre
      intro c hc
      simp at hc
  | (nm, ch) :: rest, alg, cs, hreg, hdup, hre => by
      simp only [RegularEntries, Bool.and_eq_true] at hreg
      simp only [noDupNames, Bool.and_eq_true, Bool.not_eq_true'] at hdup
      simp only [readSpecEntries] at hre
      rcases hch : read_spec h alg nm ch with e | c₀
      · simp [hch] at hre
      · rcases hrest : readSpecEntries h alg rest with e | cs'
        · simp [hch, hrest] at hre
        · simp only [hch, hrest, Except.ok.injEq] at hre
          subst hre
          intro c hc d f rp sp hm
          rcases List.mem_cons.mp hc with rfl | hc'
          · have hname : c.name = nm := read_spec_name h ch alg nm c hch
            obtain ⟨rp', sub, hrp, hnav, hsubreg, hsubrs, hlast⟩ :=
              read_spec_corr h ch alg nm c hreg.1 hch d f rp sp hm
            refine ⟨ch, rp', sub, ?_, ?_, hnav, hsubreg, hsubrs, hlast⟩
            · rw [hname]
              exact lookupEntry_cons_self nm ch rest
            · rw [hname]
              exact hrp
          · obtain ⟨child, rp', sub, hlook, hrp, hnav, hsubreg, hsubrs, hlast⟩ :=
              readSpecEntries_corr h rest alg cs' hreg.2 hdup.2 hrest c hc' d f rp sp hm
            refine ⟨child, rp', sub, ?_, hrp, hnav, hsubreg, hsubrs, hlast⟩
            have hcnm : nm ≠ c.name := by
              intro hcontra
              have hany := lookupEntry_some_any hlook
              rw [← hcontra] at hany
              rw [hdup.1] at hany
              cases hany
            rw [lookupEntry_cons_ne c.name nm ch rest hcnm]
            exact hlook

end

/-- The verifier succeeds on the very tree a spec was read from. -/
theorem check_self (h : String → List Nat → String) {n : FSNode}
    {alg name : String} {s : FileOrDirSpec}
    (hreg : Regular n = true) (hs : read_spec h alg name n = .ok s) :
    check_fulfils_spec h [(name, n)] s = .ok () := by
  have hname : s.name = name := read_spec_name h n alg name s hs
  have hsym : isSymlinkEntry [(name, n)] s.name = false := by
    rw [hname]
    simp [isSymlinkEntry, lookupEntry_cons_self, Regular.not_symlink hreg]
  have hph1 : phase1 [(name, n)] (iterPS true true [] s) = .ok () := by
    apply phase1_ok_of
    intro rp sp hm
    obtain ⟨rp', sub, rfl, hnav, hsubreg, hsubrs, hlast⟩ :=
      read_spec_corr h n alg name s hreg hs true true rp sp hm
    refine ⟨sub, ?_, read_spec_meta h hsubreg hsubrs⟩
    rw [resolvePath_singleton_self, hnav]
    simpa using Regular.resolve_self hsubreg
  have hph2 : phase2 h [(name, n)] (iterPS false true [] s) = .ok () := by
    apply phase2_ok_of
    intro rp sp hm
    obtain ⟨rp', sub, rfl, hnav, hsubreg, hsubrs, hlast⟩ :=
      read_spec_corr h n alg name s hreg hs false true rp sp hm
    have hfs : sp.isFileSpec = true := iterPS_files_isFileSpec s true [] _ sp hm
    obtain ⟨c, p, t, hsub, hsp⟩ := read_spec_file_of_isFileSpec h hsubreg hsubrs hfs
    refine ⟨sub, ?_, ?_, ?_⟩
    · rw [resolvePath_singleton_self]
      exact hnav
    · rw [hsub]
      rfl
    · rw [hlast]
      have hhn : sp.hashName = alg := by rw [hsp]; rfl
      rw [hhn]
      exact hsubrs
  simp [check_fulfils_spec, hsym, hph1, hph2]

/-! ## The verifier consults only the entry named by the spec root -/

theorem phase1_congr (es₁ es₂ : List (String × FSNode)) (nm : String)
    (hl : lookupEntry es₁ nm = lookupEntry es₂ nm) :
    ∀ l, (∀ rp sp, (rp, sp) ∈ l → ∃ rp', rp = nm :: rp') →
      phase1 es₁ l = phase1 es₂ l := by
  intro l
  induction l with
  | nil => intro _; rfl
  | cons x rest ih =>
      obtain ⟨rp, sp⟩ := x
      intro H
      obtain ⟨rp', rfl⟩ := H _ _ (List.mem_cons_self _ _)
      have hres : resolvePath es₁ (nm :: rp') = resolvePath es₂ (nm :: rp') := by
        rw [resolvePath_cons, resolvePath_cons, hl]
      simp only [phase1, hres]
      cases hr : (resolvePath es₂ (nm :: rp')).bind FSNode.resolve with
      | none => rfl
      | some node =>
          by_cases hm : readMetaNode node = some sp.meta
          · simp only [hm, if_true, eq_self_iff_true]
            exact ih (fun rp₀ sp₀ hm₀ => H rp₀ sp₀ (List.mem_cons_of_mem _ hm₀))
          · simp [hm]

theorem phase2_congr (h : String → List Nat → String)
    (es₁ es₂ : List (String × FSNode)) (nm : String)
    (hl : lookupEntry es₁ nm = lookupEntry es₂ nm) :
    ∀ l, (∀ rp sp, (rp, sp) ∈ l → ∃ rp', rp = nm :: rp') →
      phase2 h es₁ l = phase2 h es₂ l := by
  intro l
  induction l with
  | nil => intro _; rfl
  | cons x rest ih =>
      obtain ⟨rp, sp⟩ := x
      intro H
      obtain ⟨rp', rfl⟩ := H _ _ (List.mem_cons_self _ _)
      have hres : resolvePath es₁ (nm :: rp') = resolvePath es₂ (nm :: rp') := by
        rw [resolvePath_cons, resolvePath_cons, hl]
      simp only [phase2, hres]
      cases hr : resolvePath es₂ (nm :: rp') with
      | none => rfl
      | some node =>
          by_cases hf : node.isFile = true
          · simp only [hf, if_true, eq_self_iff_true]
            cases hrs : read_spec h sp.hashName ((nm :: rp').getLastD "") node with
            | error e => rfl
            | ok target =>
                by_cases hb : FileOrDirSpec.beq target sp = true
                · simp only [hb, if_true]
                  exact ih (fun rp₀ sp₀ hm₀ => H rp₀ sp₀ (List.mem_cons_of_mem _ hm₀))
                · rw [Bool.not_eq_true] at hb
                  simp [hb]
          · simp [hf]

theorem check_congr (h : String → List Nat → String)
    (es₁ es₂ : List (String × FSNode)) (s : FileOrDirSpec)
    (hl : lookupEntry es₁ s.name = lookupEntry es₂ s.name) :
    check_fulfils_spec h es₁ s = check_fulfils_spec h es₂ s := by
  have hsym : isSymlinkEntry es₁ s.name = isSymlinkEntry es₂ s.name := by
    simp [isSymlinkEntry, hl]
  have H : ∀ (d f : Bool), ∀ rp sp, (rp, sp) ∈ iterPS d f [] s →
      ∃ rp', rp = s.name :: rp' := fun _ _ _ _ hm => iterPS_head hm
  simp only [check_fulfils_spec, hsym,
    phase1_congr es₁ es₂ s.name hl _ (H true true),
    phase2_congr h es₁ es₂ s.name hl _ (H false true)]

/-! ## Copy lemmas -/

mutual

theorem copyNode_regular : ∀ (n : FSNode), Regular n = true → copyNode n = .ok n
  | .file c p t, _ => rfl
  | .dir es p t, hreg => by
      simp only [Regular, Bool.and_eq_true] at hreg
      simp [copyNode, copyEntries_regular es hreg.2]
  | .symlink tgt, hreg => by simp [Regular] at hreg
  | .other, hreg => by simp [Regular] at hreg

theorem copyEntries_regular : ∀ (es : List (String × FSNode)),
    RegularEntries es = true → copyEntries es = .ok es
  | [], _ => rfl
  | (nm, child) :: rest, hre => by
      simp only [RegularEntries, Bool.and_eq_true] at hre
      simp [copyEntries, copyNode_regular child hre.1, copyEntries_regular rest hre.2]

end

theorem copy_into_regular {n : FSNode} (hreg : Regular n = true) :
    copy_into n = .ok n := by
  cases n with
  | file c p t => rfl
  | dir es p t =>
      simp only [Regular, Bool.and_eq_true] at hreg
      simp [copy_into, FSNode.resolve, copyEntries_regular es hreg.2]
  | symlink tgt => simp [Regular] at hreg
  | other => simp [Regular] at hreg

/-! ## Blob-population lemmas -/

theorem lookupBlob_cons (hn hn' : String) (k : String × String) (c₀ : List Nat)
    (bl : List ((String × String) × List Nat)) (a d : String) :
    lookupBlob ⟨hn, (k, c₀) :: bl⟩ a d =
      if k = (a, d) then some c₀ else lookupBlob ⟨hn', bl⟩ a d := by
  by_cases hk : k = (a, d) <;> simp [lookupBlob, List.find?, hk]

theorem lookupBlob_none_any {st : Storage} {a d : String}
    (hl : lookupBlob st a d = none) :
    st.blobs.any (fun e => decide (e.1 = (a, d))) = false := by
  simp only [lookupBlob] at hl
  rcases hf : st.blobs.find? (fun e => decide (e.1 = (a, d))) with _ | e
  · rw [List.find?_eq_none] at hf
    simp only [List.any_eq_false]
    intro e he
    simpa using hf e he
  · rw [hf] at hl
    cases hl

theorem hasFile_false_lookup_none {st : Storage} {sp : FileOrDirSpec}
    (hhas : st.hasFile sp = false) :
    lookupBlob st sp.hashName sp.digest = none := by
  rw [Storage.hasFile] at hhas
  rcases hlb : lookupBlob st sp.hashName sp.digest with _ | c
  · rfl
  · rw [hlb] at hhas
    cases hhas

/-- Inversion of one step of the blob-population loop. -/
theorem storeBlobs_cons_inv {staged : List (String × FSNode)}
    {st st' : Storage} {rp : List String} {sp : FileOrDirSpec}
    {rest : List (List String × FileOrDirSpec)}
    (hsb : storeBlobs staged st ((rp, sp) :: rest) = .ok st') :
    (st.hasFile sp = true ∧ storeBlobs staged st rest = .ok st') ∨
    (st.hasFile sp = false ∧ ∃ c p t, resolvePath staged rp = some (.file c p t) ∧
      storeBlobs staged ⟨st.hash_name, ((sp.hashName, sp.digest), c) :: st.blobs⟩ rest = .ok st') := by
  by_cases hhas : st.hasFile sp = true
  · simp only [storeBlobs, hhas, if_true] at hsb
    exact Or.inl ⟨hhas, hsb⟩
  · rw [Bool.not_eq_true] at hhas
    simp only [storeBlobs, hhas, Bool.false_eq_true, if_false] at hsb
    rcases hres : resolvePath staged rp with _ | node
    · rw [hres] at hsb; cases hsb
    · cases node with
      | file c p t =>
          simp only [hres] at hsb
          exact Or.inr ⟨hhas, c, p, t, rfl, hsb⟩
      | dir es p t => simp only [hres] at hsb; cases hsb
      | symlink tgt => simp only [hres] at hsb; cases hsb
      | other => simp only [hres] at hsb; cases hsb

theorem storeBlobs_total (staged : List (String × FSNode)) :
    ∀ (l : List (List String × FileOrDirSpec)) (st : Storage),
      (∀ rp sp, (rp, sp) ∈ l → ∃ c p t, resolvePath staged rp = some (.file c p t)) →
      ∃ st', storeBlobs staged st l = .ok st' := by
  intro l
  induction l with
  | nil => intro st _; exact ⟨st, rfl⟩
  | cons x rest ih =>
      obtain ⟨rp, sp⟩ := x
      intro st H
      by_cases hhas : st.hasFile sp = true
      · obtain ⟨st', hst'⟩ := ih st (fun rp' sp' hm => H rp' sp' (List.mem_cons_of_mem _ hm))
        exact ⟨st', by simp [storeBlobs, hhas, hst']⟩
      · obtain ⟨c, p, t, hres⟩ := H rp sp (List.mem_cons_self _ _)
        obtain ⟨st', hst'⟩ := ih ⟨st.hash_name, ((sp.hashName, sp.digest), c) :: st.blobs⟩
          (fun rp' sp' hm => H rp' sp' (List.mem_cons_of_mem _ hm))
        refine ⟨st', ?_⟩
        rw [Bool.not_eq_true] at hhas
        simp [storeBlobs, hhas, hres, hst']

theorem storeBlobs_hash_name {staged : List (String × FSNode)} :
    ∀ {l : List (List String × FileOrDirSpec)} {st st' : Storage},
      storeBlobs staged st l = .ok st' → st'.hash_name = st.hash_name := by
  intro l
  induction l with
  | nil => intro st st' hsb; cases hsb; rfl
  | cons x rest ih =>
      obtain ⟨rp, sp⟩ := x
      intro st st' hsb
      rcases storeBlobs_cons_inv hsb with ⟨_, hsb'⟩ | ⟨_, c, p, t, _, hsb'⟩
      · exact ih hsb'
      · exact (ih hsb').trans rfl

theorem storeBlobs_mono {staged : List (String × FSNode)} :
    ∀ {l : List (List String × FileOrDirSpec)} {st st' : Storage},
      storeBlobs staged st l = .ok st' →
      ∀ a d c, lookupBlob st a d = some c → lookupBlob st' a d = some c := by
  intro l
  induction l with
  | nil => intro st st' hsb; cases hsb; intro a d c hc; exact hc
  | cons x rest ih =>
      obtain ⟨rp, sp⟩ := x
      intro st st' hsb a d c hc
      rcases storeBlobs_cons_inv hsb with ⟨_, hsb'⟩ | ⟨hhas, c₀, p, t, hres, hsb'⟩
      · exact ih hsb' a d c hc
      · refine ih hsb' a d c ?_
        rw [lookupBlob_cons st.hash_name st.hash_name _ _ _ a d]
        have hkey : (sp.hashName, sp.digest) ≠ (a, d) := by
          intro hk
          rw [Prod.mk.injEq] at hk
          have hnone := hasFile_false_lookup_none hhas
          rw [hk.1, hk.2, hc] at hnone
          cases hnone
        rw [if_neg hkey]
        exact hc

theorem Storage.hasFile_mono {staged : List (String × FSNode)}
    {l : List (List String × FileOrDirSpec)} {st st' : Storage}
    (hsb : storeBlobs staged st l = .ok st') {sp : FileOrDirSpec}
    (hhas : st.hasFile sp = true) : st'.hasFile sp = true := by
  rw [Storage.hasFile, Option.isSome_iff_exists] at hhas ⊢
  obtain ⟨c, hc⟩ := hhas
  exact ⟨c, storeBlobs_mono hsb _ _ c hc⟩

theorem storeBlobs_presence {staged : List (String × FSNode)} :
    ∀ {l : List (List String × FileOrDirSpec)} {st st' : Storage},
      storeBlobs staged st l = .ok st' →
      ∀ rp sp, (rp, sp) ∈ l → st'.hasFile sp = true := by
  intro l
  induction l with
  | nil => intro st st' _ rp sp hm; simp at hm
  | cons x rest ih =>
      obtain ⟨rp₀, sp₀⟩ := x
      intro st st' hsb rp sp hm
      rcases storeBlobs_cons_inv hsb with ⟨hhas, hsb'⟩ | ⟨hhas, c₀, p, t, hres, hsb'⟩
      · rcases List.mem_cons.mp hm with heq | hmem
        · simp only [Prod.mk.injEq] at heq
          obtain ⟨rfl, rfl⟩ := heq
          exact Storage.hasFile_mono hsb' hhas
        · exact ih hsb' rp sp hmem
      · rcases List.mem_cons.mp hm with heq | hmem
        · simp only [Prod.mk.injEq] at heq
          obtain ⟨rfl, rfl⟩ := heq
          refine Storage.hasFile_mono hsb' ?_
          rw [Storage.hasFile, lookupBlob_cons st.hash_name st.hash_name _ _ _ _ _, if_pos rfl]
          rfl
        · exact ih hsb' rp sp hmem

theorem storeBlobs_wellStored (h : String → List Nat → String)
    {staged : List (String × FSNode)} :
    ∀ {l : List (List String × FileOrDirSpec)} {st st' : Storage},
      storeBlobs staged st l = .ok st' → WellStored h st →
      (∀ rp sp, (rp, sp) ∈ l → ∀ c p t,
        resolvePath staged rp = some (.file c p t) → sp.digest = h sp.hashName c) →
      WellStored h st' := by
  intro l
  induction l with
  | nil => intro st st' hsb hws _; cases hsb; exact hws
  | cons x rest ih =>
      obtain ⟨rp₀, sp₀⟩ := x
      intro st st' hsb hws H
      rcases storeBlobs_cons_inv hsb with ⟨hhas, hsb'⟩ | ⟨hhas, c₀, p, t, hres, hsb'⟩
      · exact ih hsb' hws (fun rp sp hm => H rp sp (List.mem_cons_of_mem _ hm))
      · refine ih hsb' ?_ (fun rp sp hm => H rp sp (List.mem_cons_of_mem _ hm))
        intro a d cv hcv
        rw [lookupBlob_cons st.hash_name st.hash_name _ _ _ a d] at hcv
        by_cases hk : (sp₀.hashName, sp₀.digest) = (a, d)
        · rw [if_pos hk] at hcv
          injection hcv with hcc
          rw [Prod.mk.injEq] at hk
          rw [← hk.1, ← hk.2, ← hcc]
          exact (H rp₀ sp₀ (List.mem_cons_self _ _) c₀ p t hres).symm
        · rw [if_neg hk] at hcv
          exact hws a d cv hcv

theorem storeBlobs_distinct {staged : List (String × FSNode)} :
    ∀ {l : List (List String × FileOrDirSpec)} {st st' : Storage},
      storeBlobs staged st l = .ok st' → distinctKeys st.blobs = true →
      distinctKeys st'.blobs = true := by
  intro l
  induction l with
  | nil => intro st st' hsb hdk; cases hsb; exact hdk
  | cons x rest ih =>
      obtain ⟨rp₀, sp₀⟩ := x
      intro st st' hsb hdk
      rcases storeBlobs_cons_inv hsb with ⟨hhas, hsb'⟩ | ⟨hhas, c₀, p, t, hres, hsb'⟩
      · exact ih hsb' hdk
      · refine ih hsb' ?_
        have hany := lookupBlob_none_any (hasFile_false_lookup_none hhas)
        simp [distinctKeys, hany, hdk]

theorem storeBlobs_skip_all {staged : List (String × FSNode)}
    {st : Storage} :
    ∀ {l : List (List String × FileOrDirSpec)},
      (∀ rp sp, (rp, sp) ∈ l → st.hasFile sp = true) →
      storeBlobs staged st l = .ok st := by
  intro l
  induction l with
  | nil => intro _; rfl
  | cons x rest ih =>
      obtain ⟨rp, sp⟩ := x
      intro H
      simp only [storeBlobs, H rp sp (List.mem_cons_self _ _), if_true]
      exact ih (fun rp' sp' hm => H rp' sp' (List.mem_cons_of_mem _ hm))

/-! ## Reconstruction lemmas -/

/-- A staged tree built by `_restore_into` is a regular file or a
directory: never a symlink, and it resolves to itself. -/
theorem buildTree_resolve {st : Storage} {s : FileOrDirSpec} {n : FSNode}
    (hbt : buildTree st s = .ok n) : n.resolve = some n ∧ n.isSymlink = false := by
  cases s with
  | fileSpec nm alg d m =>
      simp only [buildTree] at hbt
      rcases hlb : lookupBlob st alg d with _ | c
      · rw [hlb] at hbt; cases hbt
      · simp only [hlb, Except.ok.injEq] at hbt
        rw [← hbt]
        exact ⟨rfl, rfl⟩
  | dirSpec nm cs m =>
      simp only [buildTree] at hbt
      rcases hbe : buildEntries st cs with e | es
      · rw [hbe] at hbt; cases hbt
      · simp only [hbe, Except.ok.injEq] at hbt
        rw [← hbt]
        exact ⟨rfl, rfl⟩

mutual

/-- Restoring from a store that holds every blob named by the spec,
whose blobs hash to their own addresses, with a collision-free digest
function, rebuilds exactly the original tree. -/
theorem buildTree_eq (h : String → List Nat → String) (st : Storage) :
    ∀ (n : FSNode) (alg name : String) (s : FileOrDirSpec),
      Regular n = true → read_spec h alg name n = .ok s →
      WellStored h st → (∀ c c', h alg c = h alg c' → c = c') →
      (∀ rp sp, (rp, sp) ∈ iterPS false true [] s → st.hasFile sp = true) →
      buildTree st s = .ok n
  | .file c p t, alg, name, s => by
      intro hreg hs hws hinj hpres
      simp only [read_spec, Except.ok.injEq] at hs
      subst hs
      have hp : p < 4096 := by simpa [Regular] using hreg
      have hhas := hpres [name]
        (.fileSpec name alg (h alg c) (.fm ⟨S_IFREG + p, t, c.length⟩))
        (by simp [iterPS])
      rw [Storage.hasFile, Option.isSome_iff_exists] at hhas
      obtain ⟨c', hc'⟩ := hhas
      have hdig := hws _ _ _ hc'
      simp only [FileOrDirSpec.hashName, FileOrDirSpec.digest] at hc' hdig
      have hcc : c' = c := hinj c' c hdig
      subst hcc
      simp only [buildTree, hc', MetaVal.mode, MetaVal.mtime_ns, Except.ok.injEq]
      have hmod : (S_IFREG + p) % 4096 = p := by
        simp only [S_IFREG]
        omega
      rw [hmod]
  | .dir es p t, alg, name, s => by
      intro hreg hs hws hinj hpres
      have hregd := hreg
      simp only [Regular, Bool.and_eq_true] at hregd
      have hp : p < 4096 := by simpa using hregd.1.1
      simp only [read_spec] at hs
      rcases hre : readSpecEntries h alg es with e | cs
      · simp [hre] at hs
      · simp only [hre, Except.ok.injEq] at hs
        subst hs
        have hbe : buildEntries st cs = .ok es := by
          refine buildEntries_eq h st es alg cs hregd.2 hre hws hinj ?_
          intro c hc rp sp hm
          refine hpres (name :: rp) sp ?_
          simp only [iterPS, Bool.false_eq_true, if_false, List.nil_append]
          exact iterPSList_mem.mpr ⟨c, hc, iterPS_mem_cons.mpr ⟨rp, rfl, hm⟩⟩
        simp only [buildTree, hbe, MetaVal.mode, MetaVal.mtime_ns, Except.ok.injEq]
        have hmod : (S_IFDIR + p) % 4096 = p := by
          simp only [S_IFDIR]
          omega
        rw [hmod]
  | .symlink tgt, alg, name, s => by intro hreg; simp [Regular] at hreg
  | .other, alg, name, s => by intro hreg; simp [Regular] at hreg

theorem buildEntries_eq (h : String → List Nat → String) (st : Storage) :
    ∀ (es : List (String × FSNode)) (alg : String) (cs : List FileOrDirSpec),
      RegularEntries es = true → readSpecEntries h alg es = .ok cs →
      WellStored h st → (∀ c c', h alg c = h alg c' → c = c') →
      (∀ c, c ∈ cs → ∀ rp sp, (rp, sp) ∈ iterPS false true [] c →
        st.hasFile sp = true) →
      buildEntries st cs = .ok es
  | [], alg, cs, _, hre => by
      intro _ _ _
      simp only [readSpecEntries, Except.ok.injEq] at hre
      subst hre
      rfl
  | (nm, ch) :: rest, alg, cs, hreg, hre => by
      intro hws hinj hpres
      simp only [RegularEntries, Bool.and_eq_true] at hreg
      simp only [readSpecEntries] at hre
      rcases hch : read_spec h alg nm ch with e | c₀
      · simp [hch] at hre
      · rcases hrest : readSpecEntries h alg rest with e | cs'
        · simp [hch, hrest] at hre
        · simp only [hch, hrest, Except.ok.injEq] at hre
          subst hre
          have hbt : buildTree st c₀ = .ok ch :=
            buildTree_eq h st ch alg nm c₀ hreg.1 hch hws hinj
              (fun rp sp hm => hpres c₀ (List.mem_cons_self _ _) rp sp hm)
          have hbe : buildEntries st cs' = .ok rest :=
            buildEntries_eq h st rest alg cs' hreg.2 hrest hws hinj
              (fun c hc rp sp hm => hpres c (List.mem_cons_of_mem _ hc) rp sp hm)
          have hname : c₀.name = nm := read_spec_name h ch alg nm c₀ hch
          simp [buildEntries, hbt, hbe, hname]

end

/-! ## Further helper lemmas -/

theorem resolve_not_symlink : ∀ (n m : FSNode), n.resolve = some m → m.isSymlink = false
  | .file _ _ _, _, h => by cases h; rfl
  | .dir _ _ _, _, h => by cases h; rfl
  | .symlink (some t), m, h => resolve_not_symlink t m (by simpa [FSNode.resolve] using h)
  | .symlink none, _, h => by cases h
  | .other, _, h => by cases h; rfl

theorem existsAt_lookup {es : List (String × FSNode)} {nm : String} {n : FSNode}
    (hl : lookupEntry es nm = some n) (hr : n.resolve = some n) :
    existsAt es nm = true := by
  simp [existsAt, existsAtPath, resolvePath, hl, navigate, hr]

theorem restore_into_ok_inv {h : String → List Nat → String} {st : Storage}
    {spec : FileOrDirSpec} {staged : FSNode}
    (hri : restore_into h st spec = .ok staged) :
    buildTree st spec = .ok staged ∧
      check_fulfils_spec h [(spec.name, staged)] spec = .ok () := by
  simp only [restore_into] at hri
  rcases hbt : buildTree st spec with e | staged₀
  · rw [hbt] at hri; cases hri
  · simp only [hbt] at hri
    rcases hchk : check_fulfils_spec h [(spec.name, staged₀)] spec with ce | u
    · cases ce <;> simp only [hchk] at hri <;> cases hri
    · cases u
      simp only [hchk, Except.ok.injEq] at hri
      subst hri
      exact ⟨rfl, hchk⟩

mutual

theorem wtSpec_mem : ∀ (s : FileOrDirSpec), wtSpec s = true →
    ∀ (d f : Bool) (pre rp : List String) (sp : FileOrDirSpec),
      (rp, sp) ∈ iterPS d f pre s → wtSpec sp = true
  | .fileSpec n hn dg m, hwt, d, f, pre, rp, sp => by
      intro hm
      cases f <;> simp [iterPS] at hm
      rw [hm.2]
      exact hwt
  | .dirSpec n cs m, hwt, d, f, pre, rp, sp => by
      intro hm
      have hcs : wtSpecList cs = true := by
        cases m with
        | fm m₀ => simp [wtSpec] at hwt
        | dm m₀ => simpa [wtSpec] using hwt
      simp only [iterPS] at hm
      rcases List.mem_append.mp hm with hroot | hrest
      · cases d <;> simp at hroot
        rw [hroot.2]
        exact hwt
      · exact wtSpecList_mem cs hcs d f (pre ++ [n]) rp sp hrest

theorem wtSpecList_mem : ∀ (cs : List FileOrDirSpec), wtSpecList cs = true →
    ∀ (d f : Bool) (pre rp : List String) (sp : FileOrDirSpec),
      (rp, sp) ∈ iterPSList d f pre cs → wtSpec sp = true
  | [], _, d, f, pre, rp, sp => by intro hm; simp [iterPSList] at hm
  | c :: cs, hwt, d, f, pre, rp, sp => by
      intro hm
      simp only [wtSpecList, Bool.and_eq_true] at hwt
      rcases List.mem_append.mp hm with hc | hcs
      · exact wtSpec_mem c hwt.1 d f pre rp sp hc
      · exact wtSpecList_mem cs hwt.2 d f pre rp sp hcs

end

mutual

theorem read_spec_hashName (h : String → List Nat → String) :
    ∀ (n : FSNode) (alg nm : String) (s : FileOrDirSpec),
      read_spec h alg nm n = .ok s →
      ∀ rp sp, (rp, sp) ∈ iterPS false true [] s → sp.hashName = alg
  | .file c p t, alg, nm, s => by
      intro hs rp sp hm
      simp only [read_spec, Except.ok.injEq] at hs
      subst hs
      simp [iterPS] at hm
      rw [hm.2]
      rfl
  | .dir es p t, alg, nm, s => by
      intro hs rp sp hm
      simp only [read_spec] at hs
      rcases hre : readSpecEntries h alg es with e | cs
      · simp [hre] at hs
      · simp only [hre, Except.ok.injEq] at hs
        subst hs
        simp only [iterPS, Bool.false_eq_true, if_false, List.nil_append] at hm
        obtain ⟨c, hc, hmc⟩ := iterPSList_mem.mp hm
        obtain ⟨rp₀, rfl, hmc₀⟩ := iterPS_mem_cons.mp hmc
        exact readSpecEntries_hashName h es alg cs hre c hc rp₀ sp hmc₀
  | .symlink (some tgt), alg, nm, s => fun hs =>
      read_spec_hashName h tgt alg nm s (by simpa [read_spec] using hs)
  | .symlink none, alg, nm, s => by intro hs; simp [read_spec] at hs
  | .other, alg, nm, s => by intro hs; simp [read_spec] at hs

theorem readSpecEntries_hashName (h : String → List Nat → String) :
    ∀ (es : List (String × FSNode)) (alg : String) (cs : List FileOrDirSpec),
      readSpecEntries h alg es = .ok cs →
      ∀ c, c ∈ cs → ∀ rp sp, (rp, sp) ∈ iterPS false true [] c → sp.hashName = alg
  | [], alg, cs, hre => by
      simp only [readSpecEntries, Except.ok.injEq] at hre
      subst hre
      intro c hc
      simp at hc
  | (nm, ch) :: rest, alg, cs, hre => by
      simp only [readSpecEntries] at hre
      rcases hch : read_spec h alg nm ch with e | c₀
      · simp [hch] at hre
      · rcases hrest : readSpecEntries h alg rest with e | cs'
        · simp [hch, hrest] at hre
        · simp only [hch, hrest, Except.ok.injEq] at hre
          subst hre
          intro c hc rp sp hm
          rcases List.mem_cons.mp hc with rfl | hc'
          · exact read_spec_hashName h ch alg nm c hch rp sp hm
          · exact readSpecEntries_hashName h rest alg cs' hrest c hc' rp sp hm

end

/-! ## Claim theorems -/

/-- C1.  Round trip: for every tree of regular files and directories,
storing it and restoring the returned manifest into an empty destination
reproduces, at `D/T.name`, a tree equal to the original in content,
mode and mtime on every node (provided the digest provider is
collision-free and every pre-existing blob hashes to its own address).
The destination listing after restore is exactly `[(name, src)]`. -/
theorem c1_round_trip (h : String → List Nat → String) (st : Storage)
    (name : String) (src : FSNode)
    (hreg : Regular src = true)
    (hinj : ∀ c c', h st.hash_name c = h st.hash_name c' → c = c')
    (hws : WellStored h st) :
    ∃ spec st', store h st name src = .ok (spec, st') ∧
      restoreT h st' spec [] = (.ok [(name, src)], [src]) := by
  obtain ⟨spec, hspec⟩ := read_spec_total h src hreg st.hash_name name
  have hname : spec.name = name := read_spec_name h src st.hash_name name spec hspec
  have hcopy : copy_into src = .ok src := copy_into_regular hreg
  have Hres : ∀ rp sp, (rp, sp) ∈ iterPS false true [] spec →
      ∃ c p t, resolvePath [(name, src)] rp = some (.file c p t) ∧
        sp = .fileSpec sp.name st.hash_name (h st.hash_name c)
          (.fm ⟨S_IFREG + p, t, c.length⟩) := by
    intro rp sp hm
    obtain ⟨rp', sub, rfl, hnav, hsubreg, hsubrs, hlast⟩ :=
      read_spec_corr h src st.hash_name name spec hreg hspec false true rp sp hm
    have hfs : sp.isFileSpec = true := iterPS_files_isFileSpec spec true [] _ sp hm
    obtain ⟨c, p, t, hsub, hsp⟩ := read_spec_file_of_isFileSpec h hsubreg hsubrs hfs
    subst hsub
    refine ⟨c, p, t, ?_, hsp⟩
    rw [resolvePath_singleton_self]
    exact hnav
  obtain ⟨st', hsb⟩ := storeBlobs_total [(name, src)] (iterPS false true [] spec) st
    (by
      intro rp sp hm
      obtain ⟨c, p, t, hr, _⟩ := Hres rp sp hm
      exact ⟨c, p, t, hr⟩)
  have hstore : store h st name src = .ok (spec, st') := by
    simp [store, hcopy, hspec, hsb]
  have hws' : WellStored h st' := by
    refine storeBlobs_wellStored h hsb hws ?_
    intro rp sp hm c p t hres
    obtain ⟨c₀, p₀, t₀, hr₀, hsp₀⟩ := Hres rp sp hm
    rw [hres] at hr₀
    injection hr₀ with hr₁
    injection hr₁ with hc hp ht
    rw [hsp₀]
    simp only [FileOrDirSpec.digest, FileOrDirSpec.hashName]
    rw [hc]
  have hpres : ∀ rp sp, (rp, sp) ∈ iterPS false true [] spec →
      st'.hasFile sp = true := storeBlobs_presence hsb
  have hbt : buildTree st' spec = .ok src :=
    buildTree_eq h st' src st.hash_name name spec hreg hspec hws' hinj hpres
  have hchk : check_fulfils_spec h [(spec.name, src)] spec = .ok () := by
    rw [hname]
    exact check_self h hreg hspec
  refine ⟨spec, st', hstore, ?_⟩
  have hexn : existsAt [] name = false := rfl
  have hchkn : check_fulfils_spec h [(name, src)] spec = .ok () := by
    rw [← hname]
    exact hchk
  simp [restoreT, restore_into, hbt, hname, hexn, hchkn, insertEntry]

/-- Witness for C1 at a concrete two-level tree and an empty storage. -/
theorem c1_round_trip_witness :
    Regular srcDemo = true ∧ WellStored demoHash stEmpty ∧
    ∃ spec st', store demoHash stEmpty "proj" srcDemo = .ok (spec, st') ∧
      restoreT demoHash st' spec [] = (.ok [("proj", srcDemo)], [srcDemo]) := by
  refine ⟨by rfl, ?_, ?_⟩
  · intro a d c hc
    simp [lookupBlob, stEmpty] at hc
  · exact c1_round_trip demoHash stEmpty "proj" srcDemo (by rfl)
      (fun c c' => demoHash_inj stEmpty.hash_name c c')
      (by intro a d c hc; simp [lookupBlob, stEmpty] at hc)

/-- C2 (amended).  If `dst_dir/spec.name` exists and the verifier
diagnoses a mismatch (a `DifferentSpec`), restore fails with
`CollisionError` carrying that mismatch and performs no write at the
destination path (empty write trace, pre-existing object untouched);
when the existing path is a symbolic link the verifier's symlink guard
raises `ValueError` instead, which restore propagates as is — so the
original claim's `CollisionError` does not cover that case. -/
theorem c2_collision_safety (h : String → List Nat → String) (st : Storage)
    (spec : FileOrDirSpec) (dst : List (String × FSNode)) (f : CheckFailure)
    (hex : existsAt dst spec.name = true)
    (hchk : check_fulfils_spec h dst spec = .error (.differentSpec f)) :
    restoreT h st spec dst = (.error (.collisionError f), []) := by
  simp [restoreT, hex, hchk]

/-- Witness for the amended C2: a one-byte file where the spec expects
other metadata. -/
theorem c2_collision_safety_witness :
    existsAt [("proj", fileDemo)] specSymDemo.name = true ∧
    restoreT demoHash stEmpty specSymDemo [("proj", fileDemo)] =
      (.error (.collisionError (.specMismatch ["proj"] specSymDemo
        (.fileSpec "proj" "sha256" (demoHash "sha256" [1])
          (.fm ⟨S_IFREG + 420, 1000, 1⟩)))), []) := by
  refine ⟨by rfl, ?_⟩
  exact c2_collision_safety demoHash stEmpty specSymDemo [("proj", fileDemo)] _ (by rfl) (by rfl)

/-- Counterexample to C2 as stated: the destination entry is a symbolic
link (to a file), so it exists and does not fulfil the spec, yet restore
propagates the symlink `ValueError` rather than raising
`CollisionError`. -/
theorem c2_counterexample :
    existsAt dstSymDemo specSymDemo.name = true ∧
    isOkCheck (check_fulfils_spec demoHash dstSymDemo specSymDemo) = false ∧
    restoreT demoHash stEmpty specSymDemo dstSymDemo =
      (.error (.checkOther .symlinkValueError), []) ∧
    isCollisionErr (restore demoHash stEmpty specSymDemo dstSymDemo) = false := by
  exact ⟨rfl, rfl, rfl, rfl⟩

/-- C3.  Dedup idempotence: storing never duplicates a blob address
(distinct keys are preserved), and a second store of the same unchanged
input returns the same manifest and leaves the blob store unchanged. -/
theorem c3_dedup_idempotence (h : String → List Nat → String) (st : Storage)
    (name : String) (src : FSNode) (spec : FileOrDirSpec) (st₁ : Storage)
    (hreg : Regular src = true)
    (hdk : distinctKeys st.blobs = true)
    (hst : store h st name src = .ok (spec, st₁)) :
    distinctKeys st₁.blobs = true ∧ store h st₁ name src = .ok (spec, st₁) := by
  have hcopy : copy_into src = .ok src := copy_into_regular hreg
  simp only [store, hcopy] at hst
  rcases hrs : read_spec h st.hash_name name src with e | spec₀
  · rw [hrs] at hst; cases hst
  · simp only [hrs] at hst
    rcases hsb : storeBlobs [(name, src)] st (iterPS false true [] spec₀) with e | st₁'
    · rw [hsb] at hst; cases hst
    · simp only [hsb, Except.ok.injEq, Prod.mk.injEq] at hst
      obtain ⟨rfl, rfl⟩ := hst
      refine ⟨storeBlobs_distinct hsb hdk, ?_⟩
      have hhn : st₁'.hash_name = st.hash_name := storeBlobs_hash_name hsb
      have hrs' : read_spec h st₁'.hash_name name src = .ok spec₀ := by
        rw [hhn]
        exact hrs
      have hpres := storeBlobs_presence hsb
      simp [store, hcopy, hrs',
        storeBlobs_skip_all (fun rp sp hm => hpres rp sp hm)]

/-- Witness for C3 at a one-file tree stored into an empty storage. -/
theorem c3_dedup_idempotence_witness :
    Regular fileDemo = true ∧ distinctKeys stEmpty.blobs = true ∧
    store demoHash stEmpty "f" fileDemo = .ok (specFileDemo, stOneDemo) ∧
    (distinctKeys stOneDemo.blobs = true ∧
      store demoHash stOneDemo "f" fileDemo = .ok (specFileDemo, stOneDemo)) := by
  refine ⟨by rfl, by rfl, by rfl, ?_⟩
  exact c3_dedup_idempotence demoHash stEmpty "f" fileDemo specFileDemo stOneDemo
    (by rfl) (by rfl) (by rfl)

/-- C4.  Restore idempotence: when the destination already fulfils the
spec, restore is a no-op (success, no write event, listing unchanged);
hence after any successful restore, running the same restore again
succeeds and changes nothing. -/
theorem c4_restore_idempotence (h : String → List Nat → String) (st : Storage)
    (spec : FileOrDirSpec) (dst d' : List (String × FSNode)) :
    (existsAt dst spec.name = true → check_fulfils_spec h dst spec = .ok () →
      restoreT h st spec dst = (.ok dst, [])) ∧
    (restore h st spec dst = .ok d' → restoreT h st spec d' = (.ok d', [])) := by
  constructor
  · intro hex hchk
    simp [restoreT, hex, hchk]
  · intro hres
    by_cases hex : existsAt dst spec.name = true
    · rcases hchk : check_fulfils_spec h dst spec with ce | u
      · cases ce <;> simp [restore, restoreT, hex, hchk] at hres
      · cases u
        simp only [restore, restoreT, hex, hchk, if_true, Except.ok.injEq] at hres
        subst hres
        simp [restoreT, hex, hchk]
    · rw [Bool.not_eq_true] at hex
      rcases hri : restore_into h st spec with e | staged
      · simp [restore, restoreT, hex, hri] at hres
      · simp only [restore, restoreT, hex, Bool.false_eq_true, if_false, hri,
          Except.ok.injEq] at hres
        subst hres
        obtain ⟨hbt, hchk⟩ := restore_into_ok_inv hri
        have hlook : lookupEntry (insertEntry dst spec.name staged) spec.name = some staged :=
          lookupEntry_insertEntry_self dst spec.name staged
        have hex2 : existsAt (insertEntry dst spec.name staged) spec.name = true :=
          existsAt_lookup hlook (buildTree_resolve hbt).1
        have hchk2 : check_fulfils_spec h (insertEntry dst spec.name staged) spec = .ok () := by
          rw [check_congr h (insertEntry dst spec.name staged) [(spec.name, staged)] spec
            (by rw [hlook, lookupEntry_cons_self])]
          exact hchk
        simp [restoreT, hex2, hchk2]

/-- Witness for C4: a destination that already holds the restored file,
and a full run of restore twice in a row. -/
theorem c4_restore_idempotence_witness :
    (existsAt [("f", fileDemo)] specFileDemo.name = true ∧
      check_fulfils_spec demoHash [("f", fileDemo)] specFileDemo = .ok () ∧
      restoreT demoHash stOneDemo specFileDemo [("f", fileDemo)] = (.ok [("f", fileDemo)], [])) ∧
    (restore demoHash stOneDemo specFileDemo [] = .ok [("f", fileDemo)] ∧
      restoreT demoHash stOneDemo specFileDemo [("f", fileDemo)] = (.ok [("f", fileDemo)], [])) := by
  refine ⟨⟨by rfl, by rfl, ?_⟩, ⟨by rfl, ?_⟩⟩
  · exact (c4_restore_idempotence demoHash stOneDemo specFileDemo [("f", fileDemo)]
      [("f", fileDemo)]).1 (by rfl) (by rfl)
  · exact (c4_restore_idempotence demoHash stOneDemo specFileDemo []
      [("f", fileDemo)]).2 (by rfl)

/-- C5.  Atomic visibility: restoring into a non-existing destination
path either succeeds with exactly one write event at the destination —
the rename of the complete, verifier-approved staged tree — or fails
with no write event at all (the destination stays absent). -/
theorem c5_atomic_visibility (h : String → List Nat → String) (st : Storage)
    (spec : FileOrDirSpec) (dst : List (String × FSNode))
    (hne : existsAt dst spec.name = false) :
    (∀ d', restore h st spec dst = .ok d' →
      ∃ staged, restoreT h st spec dst = (.ok d', [staged]) ∧
        d' = insertEntry dst spec.name staged ∧
        check_fulfils_spec h [(spec.name, staged)] spec = .ok ()) ∧
    (∀ e, restore h st spec dst = .error e →
      restoreT h st spec dst = (.error e, [])) := by
  constructor
  · intro d' hres
    rcases hri : restore_into h st spec with e | staged
    · simp [restore, restoreT, hne, hri] at hres
    · simp only [restore, restoreT, hne, Bool.false_eq_true, if_false, hri,
        Except.ok.injEq] at hres
      subst hres
      exact ⟨staged, by simp [restoreT, hne, hri], rfl, (restore_into_ok_inv hri).2⟩
  · intro e hres
    rcases hri : restore_into h st spec with e₀ | staged
    · simp only [restore, restoreT, hne, Bool.false_eq_true, if_false, hri,
        Except.error.injEq] at hres
      subst hres
      simp [restoreT, hne, hri]
    · simp [restore, restoreT, hne, hri] at hres

/-- Witness for C5: a successful restore (one write event, the verified
tree) and a failing restore from an empty store (no write event). -/
theorem c5_atomic_visibility_witness :
    existsAt [] specFileDemo.name = false ∧
    (∃ staged, restoreT demoHash stOneDemo specFileDemo [] = (.ok [("f", fileDemo)], [staged]) ∧
      [("f", fileDemo)] = insertEntry [] specFileDemo.name staged ∧
      check_fulfils_spec demoHash [(specFileDemo.name, staged)] specFileDemo = .ok ()) ∧
    restoreT demoHash stEmpty specFileDemo [] = (.error .fileNotFound, []) := by
  refine ⟨by rfl, ?_, ?_⟩
  · exact (c5_atomic_visibility demoHash stOneDemo specFileDemo [] (by rfl)).1
      [("f", fileDemo)] (by rfl)
  · exact (c5_atomic_visibility demoHash stEmpty specFileDemo [] (by rfl)).2
      .fileNotFound (by rfl)

/-- C6.  Restore self-verification: if the staged reconstruction fails
the verifier with a mismatch, restore into a non-existing destination
raises `RestoreError` wrapping that mismatch and produces no write event
at the destination (which stays absent). -/
theorem c6_self_verification (h : String → List Nat → String) (st : Storage)
    (spec : FileOrDirSpec) (dst : List (String × FSNode)) (staged : FSNode)
    (f : CheckFailure)
    (hne : existsAt dst spec.name = false)
    (hbt : buildTree st spec = .ok staged)
    (hchk : check_fulfils_spec h [(spec.name, staged)] spec = .error (.differentSpec f)) :
    restoreT h st spec dst = (.error (.restoreError f), []) := by
  simp [restoreT, hne, restore_into, hbt, hchk]

/-- Witness for C6: a storage whose blob at `fileDemo`'s address holds
different bytes of the same length; the staged tree fails phase-2
re-hashing and restore reports `RestoreError`. -/
theorem c6_self_verification_witness :
    existsAt [] specFileDemo.name = false ∧
    buildTree stBadDemo specFileDemo = .ok (.file [2] 420 1000) ∧
    restoreT demoHash stBadDemo specFileDemo [] =
      (.error (.restoreError (.specMismatch ["f"] specFileDemo
        (.fileSpec "f" "sha256" (demoHash "sha256" [2])
          (.fm ⟨S_IFREG + 420, 1000, 1⟩)))), []) := by
  refine ⟨by rfl, by rfl, ?_⟩
  exact c6_self_verification demoHash stBadDemo specFileDemo [] (.file [2] 420 1000) _
    (by rfl) (by rfl) (by rfl)

/-- C7.  Fail-fast two-phase verification: if phase 1 (existence and
metadata over all nodes, no content access) aborts with a mismatch, the
whole verification reports exactly that error — whose payload carries
the relative path, the expected and the observed values — and the
outcome is the same for every digest provider, i.e. no file content is
hashed; content is re-hashed only by phase 2, which runs only when
phase 1 fully passed. -/
theorem c7_fail_fast (h h' : String → List Nat → String)
    (es : List (String × FSNode)) (s : FileOrDirSpec) (e : CErr)
    (hsym : isSymlinkEntry es s.name = false)
    (hph1 : phase1 es (iterPS true true [] s) = .error e) :
    check_fulfils_spec h es s = .error e ∧ check_fulfils_spec h' es s = .error e := by
  constructor <;> simp [check_fulfils_spec, hsym, hph1]

/-- Witness for C7: a metadata mismatch reported identically under two
different digest providers (one of which hashes nothing at all). -/
theorem c7_fail_fast_witness :
    isSymlinkEntry [("proj", fileDemo)] specBadMetaDemo.name = false ∧
    phase1 [("proj", fileDemo)] (iterPS true true [] specBadMetaDemo) =
      .error (.differentSpec (.metaMismatch ["proj"]
        (.fm ⟨S_IFREG + 511, 1001, 1⟩) (some (.fm ⟨S_IFREG + 420, 1000, 1⟩)))) ∧
    check_fulfils_spec demoHash [("proj", fileDemo)] specBadMetaDemo =
      .error (.differentSpec (.metaMismatch ["proj"]
        (.fm ⟨S_IFREG + 511, 1001, 1⟩) (some (.fm ⟨S_IFREG + 420, 1000, 1⟩)))) ∧
    check_fulfils_spec (fun _ _ => "") [("proj", fileDemo)] specBadMetaDemo =
      .error (.differentSpec (.metaMismatch ["proj"]
        (.fm ⟨S_IFREG + 511, 1001, 1⟩) (some (.fm ⟨S_IFREG + 420, 1000, 1⟩)))) := by
  refine ⟨by rfl, by rfl, ?_⟩
  exact c7_fail_fast demoHash (fun _ _ => "") [("proj", fileDemo)] specBadMetaDemo _
    (by rfl) (by rfl)

/-- C9.  Single-algorithm invariant: every `FileSpec` node of a spec
tree built with algorithm `alg` carries `hash_name = alg`, and every
file node of a manifest returned by `store` carries the storage root's
bound algorithm. -/
theorem c9_single_algorithm (h : String → List Nat → String)
    (st : Storage) (alg nm name : String) (n src : FSNode) :
    (∀ s, read_spec h alg nm n = .ok s →
      ∀ rp sp, (rp, sp) ∈ iterPS false true [] s → sp.hashName = alg) ∧
    (∀ spec st', store h st name src = .ok (spec, st') →
      ∀ rp sp, (rp, sp) ∈ iterPS false true [] spec → sp.hashName = st.hash_name) := by
  constructor
  · intro s hs
    exact read_spec_hashName h n alg nm s hs
  · intro spec st' hst
    simp only [store] at hst
    rcases hcp : copy_into src with e | staged
    · rw [hcp] at hst; cases hst
    · simp only [hcp] at hst
      rcases hrs : read_spec h st.hash_name name staged with e | spec₀
      · rw [hrs] at hst; cases hst
      · simp only [hrs] at hst
        rcases hsb : storeBlobs [(name, staged)] st (iterPS false true [] spec₀) with e | st₁
        · rw [hsb] at hst; cases hst
        · simp only [hsb, Except.ok.injEq, Prod.mk.injEq] at hst
          obtain ⟨rfl, rfl⟩ := hst
          exact read_spec_hashName h staged st.hash_name name spec₀ hrs

/-- Witness for C9 at the two-level demo tree: the actual manifest
returned by `store` has `hash_name = "sha256"` on all file nodes. -/
theorem c9_single_algorithm_witness :
    read_spec demoHash "sha256" "proj" srcDemo = .ok specProjDemo ∧
    store demoHash stEmpty "proj" srcDemo = .ok (specProjDemo, stProjDemo) ∧
    (∀ rp sp, (rp, sp) ∈ iterPS false true [] specProjDemo → sp.hashName = "sha256") ∧
    (∀ rp sp, (rp, sp) ∈ iterPS false true [] specProjDemo → sp.hashName = stEmpty.hash_name) := by
  refine ⟨by rfl, by rfl, ?_, ?_⟩
  · exact (c9_single_algorithm demoHash stEmpty "sha256" "proj" "proj" srcDemo srcDemo).1
      specProjDemo (by rfl)
  · exact (c9_single_algorithm demoHash stEmpty "sha256" "proj" "proj" srcDemo srcDemo).2
      specProjDemo stProjDemo (by rfl)

/-- C10.  Phase-2 assertion validity: for a well-typed spec tree (every
`FileSpec` carries a `FileMeta`), if phase 1 completed without raising
then every path phase 2 visits for a `FileSpec` node resolves to a
regular file, so `assert abs_path.is_file()` cannot fail. -/
theorem c10_phase2_assert (es : List (String × FSNode)) (s : FileOrDirSpec)
    (hwt : wtSpec s = true)
    (hph1 : phase1 es (iterPS true true [] s) = .ok ()) :
    ∀ rp sp, (rp, sp) ∈ iterPS false true [] s →
      ∃ node, resolvePath es rp = some node ∧ node.isFile = true := by
  intro rp sp hm
  have hm' := iterPS_mono_dirs s true [] rp sp hm
  obtain ⟨node, hres, hmeta⟩ := phase1_ok_forall hph1 rp sp hm'
  have hfs : sp.isFileSpec = true := iterPS_files_isFileSpec s true [] rp sp hm
  have hwtsp : wtSpec sp = true := wtSpec_mem s hwt false true [] rp sp hm
  obtain ⟨m, hfm⟩ : ∃ m, sp.meta = .fm m := by
    cases sp with
    | fileSpec nm hn dg mv =>
        cases mv with
        | fm m₀ => exact ⟨m₀, rfl⟩
        | dm m₀ => simp [wtSpec] at hwtsp
    | dirSpec nm cs mv => simp [FileOrDirSpec.isFileSpec] at hfs
  rw [hfm] at hmeta
  rcases hr0 : resolvePath es rp with _ | node₀
  · rw [hr0] at hres; cases hres
  · rw [hr0] at hres
    simp only [Option.some_bind] at hres
    have hnosym : node.isSymlink = false := resolve_not_symlink node₀ node hres
    have hidem : node.resolve = some node := resolve_idem node₀ node hres
    refine ⟨node₀, rfl, ?_⟩
    cases node with
    | file c p t => simp [FSNode.isFile, hres]
    | dir es₀ p t => rw [readMetaNode, hidem] at hmeta; cases hmeta
    | symlink tgt => cases hnosym
    | other => rw [readMetaNode, hidem] at hmeta; cases hmeta

/-- Witness for C10: the one-file spec against a matching listing. -/
theorem c10_phase2_assert_witness :
    wtSpec specFileDemo = true ∧
    phase1 [("f", fileDemo)] (iterPS true true [] specFileDemo) = .ok () ∧
    (∀ rp sp, (rp, sp) ∈ iterPS false true [] specFileDemo →
      ∃ node, resolvePath [("f", fileDemo)] rp = some node ∧ node.isFile = true) := by
  refine ⟨by rfl, by rfl, ?_⟩
  exact c10_phase2_assert [("f", fileDemo)] specFileDemo (by rfl) (by rfl)

/-- C8 (amended).  Building a spec for a path whose target is neither a
regular file nor a directory always fails, but with two different
errors: the initial `os.stat` in `read_meta` raises `FileNotFoundError`
when the path (or the symlink chain's target) is missing, while an
existing target of another kind (device, socket) raises the
unsupported-type `ValueError` (the spec's `UnsupportedPathKind`); a
symlink whose target is a regular file or directory is followed and
does not fail at all. -/
theorem c8_unsupported_inputs (h : String → List Nat → String) :
    ∀ (n : FSNode) (alg name : String), n.isFile = false → n.isDir = false →
      (n.resolve = none → read_spec h alg name n = .error .fileNotFound) ∧
      (∀ m, n.resolve = some m → m.isSymlink = false →
        read_spec h alg name n = .error .unsupportedPathKind)
  | .file c p t, alg, name => by
      intro hf hd
      simp [FSNode.isFile, FSNode.resolve] at hf
  | .dir es p t, alg, name => by
      intro hf hd
      simp [FSNode.isDir, FSNode.resolve] at hd
  | .other, alg, name => by
      intro hf hd
      constructor
      · intro hres
        simp [FSNode.resolve] at hres
      · intro m hm hsym
        rfl
  | .symlink none, alg, name => by
      intro hf hd
      constructor
      · intro _
        rfl
      · intro m hm
        simp [FSNode.resolve] at hm
  | .symlink (some t), alg, name => by
      intro hf hd
      have hft : t.isFile = false := hf
      have hdt : t.isDir = false := hd
      have IH := c8_unsupported_inputs h t alg name hft hdt
      constructor
      · intro hres
        simp only [read_spec]
        exact IH.1 hres
      · intro m hm hsym
        simp only [read_spec]
        exact IH.2 m hm hsym

/-- Witness for the amended C8: a device/socket node fails with the
unsupported-type error; a dangling symlink fails with
`FileNotFoundError`. -/
theorem c8_unsupported_inputs_witness :
    (FSNode.isFile .other = false ∧ FSNode.isDir .other = false ∧
      read_spec demoHash "sha256" "dev" .other = .error .unsupportedPathKind) ∧
    (FSNode.isFile (.symlink none) = false ∧ FSNode.isDir (.symlink none) = false ∧
      read_spec demoHash "sha256" "lnk" (.symlink none) = .error .fileNotFound) := by
  refine ⟨⟨rfl, rfl, ?_⟩, ⟨rfl, rfl, ?_⟩⟩
  · exact (c8_unsupported_inputs demoHash .other "sha256" "dev" rfl rfl).2 .other rfl rfl
  · exact (c8_unsupported_inputs demoHash (.symlink none) "sha256" "lnk" rfl rfl).1 rfl

/-- Counterexample to C8 as stated: a dangling symbolic link is a path
whose target is neither a regular file nor a directory, yet the builder
fails with `FileNotFoundError` (from `os.stat`), not with the
unsupported-type error the claim names. -/
theorem c8_counterexample :
    FSNode.isFile (.symlink none) = false ∧
    FSNode.isDir (.symlink none) = false ∧
    read_spec demoHash "sha256" "lnk" (.symlink none) = .error .fileNotFound ∧
    RErr.fileNotFound ≠ RErr.unsupportedPathKind :=
  ⟨rfl, rfl, rfl, by decide⟩

end Archivo
